import Mathlib

/-!
# Verification of the `instant-clip-tokenizer` specification

The repository ships only the Python test (`test/test.py`) and the validation
caller (`scripts/validate.py`) of the tokenizer; the tokenizer engine itself
(vocabulary table, pretokenizer, byte-pair encoder, batch assembly) is not part
of the sources.  Following the specification, the engine is modelled here as a
shallow embedding: strings are `List Char`, the vocabulary is an explicit
association list, and all operations are executable Lean functions.

Every definition whose doc comment starts with `Modelled from the spec:` stands
for repository code that is absent from the sources and is reconstructed from
the specification's wording (sections 3, 4.2, 4.3, 4.4, 6 and 7 of `spec.md`).
-/

set_option maxHeartbeats 4000000
set_option maxRecDepth 100000
namespace ClipTok

/-! ## Basic characters and character classes -/

/-- The apostrophe character (code point 39), used by the contraction rules. -/
def apos : Char := Char.ofNat 39

/-- Modelled from the spec: the word-boundary marker (spec section 4.3 step 3,
"a synthetic suffix distinguishing a symbol at the end of its cluster").  It is
represented by a sentinel character that is outside of the image of the byte
encoder, so it can never collide with encoded cluster content. -/
def endChar : Char := Char.ofNat 0

/-- Letter class used by the pretokenizer grammar (spec section 4.2 (b)). -/
def isLetterC (c : Char) : Bool := c.isAlpha

/-- Digit class used by the pretokenizer grammar (spec section 4.2 (c)). -/
def isDigitC (c : Char) : Bool := c.isDigit

/-- Whitespace class used by the pretokenizer grammar (spec section 4.2 (e)). -/
def isSpaceC (c : Char) : Bool := c.isWhitespace

/-- Punctuation class: neither letter, digit nor whitespace (spec section 4.2 (d)). -/
def isPunctC (c : Char) : Bool := !isLetterC c && !isDigitC c && !isSpaceC c

/-- Case folding applied to every matched cluster (spec section 4.2). -/
def lowerC (c : Char) : Char := c.toLower

/-! ## The byte encoder

Modelled from the spec (section 3, `ByteEncoder`): "a fixed bijection from raw
byte values (0-255) to printable Unicode code points".  Printable bytes map to
themselves and the remaining 68 bytes map to the code points 256..323. -/

/-- Whether a byte value is already printable and maps to itself. -/
def printableByte (b : Nat) : Bool :=
  (33 ≤ b && b ≤ 126) || (161 ≤ b && b ≤ 172) || (174 ≤ b && b ≤ 255)

/-- Modelled from the spec: the `ByteEncoder` bijection byte → printable char. -/
def byteToChar (b : Nat) : Char :=
  if printableByte b then Char.ofNat b
  else if b ≤ 32 then Char.ofNat (256 + b)
  else if b ≤ 160 then Char.ofNat (289 + (b - 127))
  else Char.ofNat 323

/-- Modelled from the spec: the inverse of the `ByteEncoder` bijection, used by
`decode` to recover raw bytes. -/
def charToByte (c : Char) : Option Nat :=
  let n := c.toNat
  if printableByte n then some n
  else if 256 ≤ n && n ≤ 288 then some (n - 256)
  else if 289 ≤ n && n ≤ 322 then some (n - 289 + 127)
  else if n = 323 then some 173
  else none

/-! ## UTF-8 encoding and decoding -/

/-- The UTF-8 byte sequence of a single character. -/
def utf8Bytes (c : Char) : List Nat :=
  if c.toNat < 128 then [c.toNat]
  else if c.toNat < 2048 then [192 + c.toNat / 64, 128 + c.toNat % 64]
  else if c.toNat < 65536 then
    [224 + c.toNat / 4096, 128 + c.toNat / 64 % 64, 128 + c.toNat % 64]
  else
    [240 + c.toNat / 262144, 128 + c.toNat / 4096 % 64, 128 + c.toNat / 64 % 64,
      128 + c.toNat % 64]

/-- A UTF-8 continuation byte. -/
def contByte (b : Nat) : Bool := 128 ≤ b && b ≤ 191

/-- The replacement character emitted for invalid byte sequences. -/
def replChar : Char := Char.ofNat 65533

/-- Decode one UTF-8 sequence: the character encoded by the lead byte `b` and
the continuation bytes at the front of `rest`, together with the remaining
bytes (lossy: invalid sequences give the replacement character). -/
def decodeOne (b : Nat) (rest : List Nat) : Char × List Nat :=
  if b < 128 then (Char.ofNat b, rest)
  else if 194 ≤ b && b ≤ 223 then
    match rest with
    | b1 :: rest1 =>
      if contByte b1 then (Char.ofNat ((b - 192) * 64 + (b1 - 128)), rest1)
      else (replChar, rest)
    | [] => (replChar, [])
  else if 224 ≤ b && b ≤ 239 then
    match rest with
    | b1 :: b2 :: rest2 =>
      if contByte b1 && contByte b2 then
        ((if 2048 ≤ (b - 224) * 4096 + (b1 - 128) * 64 + (b2 - 128) &&
            ((b - 224) * 4096 + (b1 - 128) * 64 + (b2 - 128) < 55296 ||
              57343 < (b - 224) * 4096 + (b1 - 128) * 64 + (b2 - 128)) then
          Char.ofNat ((b - 224) * 4096 + (b1 - 128) * 64 + (b2 - 128))
        else replChar), rest2)
      else (replChar, rest)
    | _ => (replChar, [])
  else if 240 ≤ b && b ≤ 244 then
    match rest with
    | b1 :: b2 :: b3 :: rest3 =>
      if contByte b1 && contByte b2 && contByte b3 then
        ((if 65536 ≤ (b - 240) * 262144 + (b1 - 128) * 4096 + (b2 - 128) * 64 + (b3 - 128) &&
            (b - 240) * 262144 + (b1 - 128) * 4096 + (b2 - 128) * 64 + (b3 - 128) < 1114112 then
          Char.ofNat ((b - 240) * 262144 + (b1 - 128) * 4096 + (b2 - 128) * 64 + (b3 - 128))
        else replChar), rest3)
      else (replChar, rest)
    | _ => (replChar, [])
  else (replChar, rest)

/-- Fuel-indexed lossy UTF-8 decoding; the fuel only serves structural
termination and any fuel of at least the input length gives the same result. -/
def utf8DecodeF : Nat → List Nat → List Char
  | 0, _ => []
  | _ + 1, [] => []
  | fuel + 1, b :: rest => (decodeOne b rest).1 :: utf8DecodeF fuel (decodeOne b rest).2

/-- Lossy UTF-8 decoding of a byte sequence (spec section 4.4: "decode those
bytes as UTF-8 with lossy substitution for invalid sequences"). -/
def utf8Decode (l : List Nat) : List Char := utf8DecodeF l.length l

/-! ## Generic list helpers -/

/-- Concatenation of a list of lists. -/
def joinAll {α : Type} : List (List α) → List α
  | [] => []
  | x :: xs => x ++ joinAll xs

/-- First-match association-list lookup (the vocabulary mappings of spec
section 3 are modelled as explicit association lists). -/
def alookup {α β : Type} [DecidableEq α] : List (α × β) → α → Option β
  | [], _ => none
  | (k, v) :: rest, a => if k = a then some v else alookup rest a

/-! ## The pretokenizer

Modelled from the spec (section 4.2): a single alternation grammar recognising,
in priority order, contractions, letter runs, digit runs, punctuation runs and
whitespace runs; matching is greedy left-to-right, the contraction set is
case-insensitive, every matched cluster is lowercased, and whitespace matches
produce no cluster. -/

/-- Modelled from the spec: match one of the contraction forms
`'s 't 'm 'd 're 've 'll` (case-insensitively) at the start of the input,
returning the matched cluster and the remaining input. -/
def matchContraction : List Char → Option (List Char × List Char)
  | a :: c :: rest =>
    if a = apos then
      let lc := lowerC c
      if lc = 's' ∨ lc = 't' ∨ lc = 'm' ∨ lc = 'd' then some ([a, c], rest)
      else
        match rest with
        | d :: rest1 =>
          let ld := lowerC d
          if (lc = 'r' ∧ ld = 'e') ∨ (lc = 'v' ∧ ld = 'e') ∨ (lc = 'l' ∧ ld = 'l') then
            some ([a, c, d], rest1)
          else none
        | [] => none
    else none
  | _ => none

/-- Fuel-indexed cluster splitting; the fuel only serves structural
termination and any fuel of at least the input length gives the same result. -/
def pretokF : Nat → List Char → List (List Char)
  | 0, _ => []
  | _ + 1, [] => []
  | fuel + 1, c :: rest =>
    match matchContraction (c :: rest) with
    | some (cl, rest1) => cl.map lowerC :: pretokF fuel rest1
    | none =>
      if isLetterC c then
        ((c :: rest.takeWhile isLetterC).map lowerC) :: pretokF fuel (rest.dropWhile isLetterC)
      else if isDigitC c then
        ((c :: rest.takeWhile isDigitC).map lowerC) :: pretokF fuel (rest.dropWhile isDigitC)
      else if isSpaceC c then pretokF fuel (rest.dropWhile isSpaceC)
      else
        ((c :: rest.takeWhile isPunctC).map lowerC) :: pretokF fuel (rest.dropWhile isPunctC)

/-- Modelled from the spec: split the input into an ordered sequence of
lowercased clusters (spec section 4.2). -/
def pretokenize (l : List Char) : List (List Char) := pretokF l.length l

/-! ## The vocabulary table -/

/-- Modelled from the spec (sections 3 and 4.1): the token → ID mapping, the
inverse ID → token mapping, the ordered merge list (position = rank), and the
two reserved special-token IDs. -/
structure VocabularyTable where
  toId : List (List Char × Nat)
  toStr : List (Nat × List Char)
  merges : List (List Char × List Char)
  sotId : Nat
  eotId : Nat

/-- Modelled from the spec (section 4.1): `lookup_id`, failing (with
`UnknownToken`, here `none`) when the token is absent. -/
def lookupId (vt : VocabularyTable) (t : List Char) : Option Nat :=
  alookup vt.toId t

/-- Modelled from the spec (section 4.1): `lookup_string`, failing (with
`InvalidID`, here `none`) when the ID is outside the table. -/
def lookupStr (vt : VocabularyTable) (id : Nat) : Option (List Char) :=
  alookup vt.toStr id

/-! ## The byte-pair encoder

Modelled from the spec (section 4.3): byte-encode the cluster, append the
word-boundary marker to the last symbol, then repeatedly merge every
non-overlapping occurrence of the adjacent pair with the lowest rank until no
adjacent pair is in the merge table.  The `EncodeCache` of the spec is a pure
optimisation ("never a correctness dependency") and is not modelled. -/

/-- The list of adjacent pairs of a symbol sequence. -/
def adjPairs : List (List Char) → List (List Char × List Char)
  | a :: b :: rest => (a, b) :: adjPairs (b :: rest)
  | _ => []

/-- The rank of a pair in the merge table (position in the ordered list). -/
def rankOf : List (List Char × List Char) → (List Char × List Char) → Option Nat
  | [], _ => none
  | q :: rest, p => if q = p then some 0 else (rankOf rest p).map (fun r => r + 1)

/-- All adjacent pairs that occur in the merge table, with their ranks. -/
def ranked (merges : List (List Char × List Char)) (syms : List (List Char)) :
    List ((List Char × List Char) × Nat) :=
  (adjPairs syms).filterMap (fun p => (rankOf merges p).map (fun r => (p, r)))

/-- Modelled from the spec: the adjacent pair with the lowest rank among all
currently-adjacent pairs (leftmost first on the never-occurring ties). -/
def bestPair (merges : List (List Char × List Char)) (syms : List (List Char)) :
    Option (List Char × List Char) :=
  match ranked merges syms with
  | [] => none
  | x :: xs => some ((xs.foldl (fun a y => if y.2 < a.2 then y else a) x).1)

/-- Modelled from the spec: merge every non-overlapping occurrence of the pair
`p` (left to right) into a single symbol. -/
def mergePair (p : List Char × List Char) : List (List Char) → List (List Char)
  | a :: b :: rest =>
    if a = p.1 ∧ b = p.2 then (a ++ b) :: mergePair p rest
    else a :: mergePair p (b :: rest)
  | l => l

/-- Fuel-indexed merge loop; the fuel only serves structural termination and
any fuel of at least the symbol count gives the same result, because every
merge strictly reduces the symbol count. -/
def bpeLoopF : Nat → List (List Char × List Char) → List (List Char) →
    List (List Char)
  | 0, _, syms => syms
  | fuel + 1, merges, syms =>
    match bestPair merges syms with
    | none => syms
    | some p => bpeLoopF fuel merges (mergePair p syms)

/-- Modelled from the spec: the iterative merge loop of section 4.3 step 4;
terminates because every merge strictly reduces the symbol count. -/
def bpeLoop (merges : List (List Char × List Char)) (syms : List (List Char)) :
    List (List Char) :=
  bpeLoopF syms.length merges syms

/-- Modelled from the spec: the byte-encoded single-character symbols of a
cluster (section 4.3 step 2). -/
def byteChars (cluster : List Char) : List Char :=
  (joinAll (cluster.map utf8Bytes)).map byteToChar

/-- Modelled from the spec: append the word-boundary marker to the last symbol
(section 4.3 step 3). -/
def withEnd : List (List Char) → List (List Char)
  | [] => []
  | [s] => [s ++ [endChar]]
  | s :: t :: rest => s :: withEnd (t :: rest)

/-- The initial symbol sequence of a cluster, before any merge. -/
def initSymbols (cluster : List Char) : List (List Char) :=
  withEnd ((byteChars cluster).map (fun ch => [ch]))

/-- Modelled from the spec: the ordered sub-token sequence of one cluster
(section 4.3). -/
def bpe (vt : VocabularyTable) (cluster : List Char) : List (List Char) :=
  bpeLoop vt.merges (initSymbols cluster)

/-! ## The tokenizer -/

/-- The error taxonomy of spec section 7 that is reachable from the modelled
operations. -/
inductive TokError where
  | invalidContextLength
  | invalidID
  | unknownToken
  deriving DecidableEq

instance {ε α : Type} [DecidableEq ε] [DecidableEq α] : DecidableEq (Except ε α) := fun
  | .ok a, .ok b =>
    if h : a = b then .isTrue (congrArg Except.ok h)
    else .isFalse (fun hh => h (Except.ok.inj hh))
  | .ok _, .error _ => .isFalse Except.noConfusion
  | .error _, .ok _ => .isFalse Except.noConfusion
  | .error e, .error f =>
    if h : e = f then .isTrue (congrArg Except.error h)
    else .isFalse (fun hh => h (Except.error.inj hh))

/-- Look up every sub-token string; `none` models the unreachable
`UnknownToken` condition (spec sections 4.4 and 7). -/
def lookupIds (vt : VocabularyTable) : List (List Char) → Option (List Nat)
  | [] => some []
  | t :: ts =>
    match lookupId vt t, lookupIds vt ts with
    | some i, some is => some (i :: is)
    | _, _ => none

/-- Modelled from the spec: `encode` (section 4.4) — pretokenize, byte-pair
encode each cluster, concatenate in cluster order and map through
`lookup_id`.  No start/end markers are added. -/
def encode (vt : VocabularyTable) (text : List Char) : Option (List Nat) :=
  lookupIds vt (joinAll ((pretokenize text).map (bpe vt)))

/-! ## Decoding -/

/-- Modelled from the spec: the string of one ID; special-token IDs are mapped
to the empty string rather than an error, and IDs outside the valid range fail
with `InvalidID` (spec section 4.4). -/
def decodeToken (vt : VocabularyTable) (id : Nat) : Except TokError (List Char) :=
  if id = vt.sotId ∨ id = vt.eotId then .ok []
  else
    match lookupStr vt id with
    | some s => .ok s
    | none => .error .invalidID

/-- Look up every ID, propagating the first `InvalidID` failure. -/
def decodeTokens (vt : VocabularyTable) : List Nat → Except TokError (List (List Char))
  | [] => .ok []
  | id :: rest =>
    match decodeToken vt id, decodeTokens vt rest with
    | .ok s, .ok ss => .ok (s :: ss)
    | .error e, _ => .error e
    | .ok _, .error e => .error e

/-- Split a character stream at every word-boundary marker. -/
def splitMarker : List Char → List (List Char)
  | [] => [[]]
  | c :: rest =>
    if c = endChar then [] :: splitMarker rest
    else
      match splitMarker rest with
      | seg :: segs => (c :: seg) :: segs
      | [] => [[c]]

/-- Modelled from the spec: invert the `ByteEncoder` bijection on one segment
and decode the recovered bytes as UTF-8. -/
def segText (seg : List Char) : List Char :=
  utf8Decode (seg.map (fun c => (charToByte c).getD 0))

/-- Join decoded segments with a literal space (the replacement of each
word-boundary marker, spec section 4.4). -/
def joinSpaces : List (List Char) → List Char
  | [] => []
  | [s] => s
  | s :: t :: rest => s ++ ' ' :: joinSpaces (t :: rest)

/-- The text of a concatenated token-character stream. -/
def renderTokens (l : List Char) : List Char :=
  joinSpaces ((splitMarker l).map segText)

/-- Modelled from the spec: `decode` (section 4.4). -/
def decode (vt : VocabularyTable) (ids : List Nat) : Except TokError (List Char) :=
  match decodeTokens vt ids with
  | .ok toks => .ok (renderTokens (joinAll toks))
  | .error e => .error e

/-! ## Batch assembly -/

/-- Modelled from the spec: one row of `tokenize_batch` (section 4.4) —
prepend the start marker, append the end marker, then right-pad with 0 or
truncate the token portion so the row is exactly `c` long. -/
def assembleRow (vt : VocabularyTable) (c : Nat) (ids : List Nat) : List Nat :=
  if ids.length + 2 ≤ c then
    vt.sotId :: ids ++ [vt.eotId] ++ List.replicate (c - (ids.length + 2)) 0
  else
    vt.sotId :: ids.take (c - 2) ++ [vt.eotId]

/-- Encode every text of a batch. -/
def encodeTexts (vt : VocabularyTable) : List (List Char) → Option (List (List Nat))
  | [] => some []
  | t :: ts =>
    match encode vt t, encodeTexts vt ts with
    | some ids, some idss => some (ids :: idss)
    | _, _ => none

/-- Modelled from the spec: `tokenize_batch` on a sequence of texts
(section 4.4); fails with `InvalidContextLength` when the context length has no
room for both markers. -/
def tokenizeBatch (vt : VocabularyTable) (texts : List (List Char)) (c : Nat) :
    Except TokError (List (List Nat)) :=
  if c < 2 then .error .invalidContextLength
  else
    match encodeTexts vt texts with
    | some idss => .ok (idss.map (assembleRow vt c))
    | none => .error .unknownToken

/-- Modelled from the spec: `tokenize_batch` on a single string, treated as a
batch of one (section 4.4). -/
def tokenizeBatchSingle (vt : VocabularyTable) (text : List Char) (c : Nat) :
    Except TokError (List (List Nat)) :=
  tokenizeBatch vt [text] c

/-! ## The shipped vocabulary, modelled at the entries the spec pins down

Modelled from the spec: the packaged vocabulary/merge resource is not part of
the sources.  The spec fixes the special-token IDs 49406/49407 and, through its
concrete scenarios (section 8), the IDs of the tokens those scenarios touch;
the merge chains below are the ones forced by the scenario outputs.  IDs that
the spec does not pin (the tokens dropped by truncation) are arbitrary. -/

/-- A word-final token string: the text followed by the word-boundary marker. -/
def wEnd (s : String) : List Char := s.data ++ [endChar]

/-- Modelled from the spec: the token → ID entries pinned by the concrete
scenarios of spec section 8. -/
def clipToId : List (List Char × Nat) :=
  [("bla".data, 2205), (wEnd "a", 320), (wEnd "bla", 19630),
   (wEnd "hi", 1883),
   (wEnd "how", 829), (wEnd "are", 631), (wEnd "you", 592), (wEnd "?", 286),
   (wEnd "i", 328), ([apos, 'm', endChar], 880),
   (wEnd "fine", 3797), (wEnd ",", 267), (wEnd "thanks", 9000), (wEnd "!", 9001),
   (wEnd "hello", 3306), (wEnd "world", 1002), (wEnd "!!!", 995)]

/-- Modelled from the spec: the merge chains forced by the scenario outputs. -/
def clipMerges : List (List Char × List Char) :=
  [("b".data, "l".data), ("bl".data, "a".data), ("bl".data, wEnd "a"),
   ("h".data, wEnd "i"),
   ("h".data, "o".data), ("ho".data, wEnd "w"),
   ("a".data, "r".data), ("ar".data, wEnd "e"),
   ("y".data, "o".data), ("yo".data, wEnd "u"),
   ([apos], wEnd "m"),
   ("f".data, "i".data), ("fi".data, "n".data), ("fin".data, wEnd "e"),
   ("t".data, "h".data), ("th".data, "a".data), ("tha".data, "n".data),
   ("than".data, "k".data), ("thank".data, wEnd "s"),
   ("h".data, "e".data), ("he".data, "l".data), ("hel".data, "l".data),
   ("hell".data, wEnd "o"),
   ("w".data, "o".data), ("wo".data, "r".data), ("wor".data, "l".data),
   ("worl".data, wEnd "d"),
   ("!".data, "!".data), ("!!".data, wEnd "!")]

/-- Modelled from the spec: the ID → token entries pinned by the decode
scenario, together with the inverses of the encode-side entries. -/
def clipToStr : List (Nat × List Char) :=
  [(2533, wEnd "person"), (6765, wEnd "riding"), (10297, wEnd "motorcycle")] ++
    clipToId.map (fun p => (p.2, p.1))

/-- Modelled from the spec: the freshly constructed `Tokenizer` of the test
program, restricted to the vocabulary entries the spec pins down. -/
def clipVT : VocabularyTable :=
  ⟨clipToId, clipToStr, clipMerges, 49406, 49407⟩

/-- The text "I'm fine, thanks!" (built explicitly around the apostrophe). -/
def imFine : List Char := "I".data ++ [apos] ++ "m fine, thanks!".data

/-- Whether every element from the first 0 on is 0 ("padding is a contiguous
suffix" in the literal reading of the claim). -/
def zeroSuffix (r : List Nat) : Bool :=
  (r.dropWhile (fun x => x != 0)).all (fun x => x == 0)

/-- Modelled from the spec: a vocabulary table in which the token ID 0 — which
the spec's data model makes a valid content-token ID ("IDs are dense integers
starting at 0") while also using 0 as the padding value — is reachable by
`encode`. -/
def padVT : VocabularyTable :=
  ⟨[("!".data, 0), (wEnd "?", 7)], [], [], 49406, 49407⟩

/-- Modelled from the spec: a vocabulary table with full byte-fallback coverage
— every single-byte token and every word-final single-byte token is present
(spec section 3, `ByteEncoder`, and section 4.1: "byte-fallback guarantees
coverage") — and no merges. -/
def fullVT : VocabularyTable :=
  ⟨(List.range 256).map (fun b => ([byteToChar b], b)) ++
    (List.range 256).map (fun b => ([byteToChar b, endChar], 256 + b)),
   [], [], 49406, 49407⟩

/-- The two-character contraction condition of the pretokenizer grammar
(the letter after the apostrophe, case-folded, is `s`, `t`, `m` or `d`). -/
def contrTwo (x : Char) : Prop :=
  lowerC x = 's' ∨ lowerC x = 't' ∨ lowerC x = 'm' ∨ lowerC x = 'd'

/-- The three-character contraction condition of the pretokenizer grammar
(`re`, `ve` or `ll` after the apostrophe, case-folded). -/
def contrThree (x y : Char) : Prop :=
  (lowerC x = 'r' ∧ lowerC y = 'e') ∨ (lowerC x = 'v' ∧ lowerC y = 'e') ∨
    (lowerC x = 'l' ∧ lowerC y = 'l')

/-- The shape of every cluster the pretokenizer can emit: already lowercased,
and either a contraction, a letter run, a digit run or a punctuation run. -/
def GoodCluster (w : List Char) : Prop :=
  w.map lowerC = w ∧
  ((∃ x, w = [apos, x] ∧ contrTwo x) ∨
   (∃ x y, w = [apos, x, y] ∧ ¬contrTwo x ∧ contrThree x y) ∨
   (w ≠ [] ∧ ∀ c ∈ w, isLetterC c = true) ∨
   (w ≠ [] ∧ ∀ c ∈ w, isDigitC c = true) ∨
   (w ≠ [] ∧ ∀ c ∈ w, isPunctC c = true))

/-- The text produced by decoding an encoded cluster sequence: every cluster
followed by the space that replaces its word-boundary marker. -/
def rejoined (clusters : List (List Char)) : List Char :=
  joinAll (clusters.map (fun cl => cl ++ [' ']))

/-! ## Lemmas and claim theorems -/

theorem charToByte_byteToChar (b : Nat) (hb : b < 256) :
    charToByte (byteToChar b) = some b := by
  interval_cases b <;> decide

theorem byteToChar_ne_endChar (b : Nat) (hb : b < 256) : byteToChar b ≠ endChar := by
  interval_cases b <;> decide

/-- Every character's code point is below the Unicode bound. -/
theorem char_toNat_lt (c : Char) : c.toNat < 1114112 := by
  rcases c.valid with h | ⟨h1, h2⟩
  · exact Nat.lt_trans h (by decide)
  · exact h2

/-- UTF-8 encoding only produces byte values. -/
theorem utf8Bytes_lt256 (c : Char) : ∀ b ∈ utf8Bytes c, b < 256 := by
  intro b hb
  have hv := char_toNat_lt c
  unfold utf8Bytes at hb
  split at hb
  · simp at hb
    omega
  · split at hb
    · simp at hb
      rcases hb with hb | hb <;> omega
    · split at hb
      · simp at hb
        rcases hb with hb | hb | hb <;> omega
      · simp at hb
        rcases hb with hb | hb | hb | hb <;> omega

theorem decodeOne_length (b : Nat) (rest : List Nat) :
    (decodeOne b rest).2.length ≤ rest.length := by
  unfold decodeOne
  split
  · exact Nat.le_refl _
  split
  · split
    · split <;> simp [List.length_cons] <;> omega
    · simp
  split
  · split
    · split <;> simp [List.length_cons] <;> omega
    · simp
  split
  · split
    · split <;> simp [List.length_cons] <;> omega
    · simp
  · exact Nat.le_refl _

theorem utf8DecodeF_congr :
    ∀ (fuel fuel' : Nat) (l : List Nat), l.length ≤ fuel → l.length ≤ fuel' →
      utf8DecodeF fuel l = utf8DecodeF fuel' l := by
  intro fuel
  induction fuel with
  | zero =>
    intro fuel' l h h'
    have : l = [] := List.length_eq_zero.mp (Nat.le_zero.mp h)
    subst this
    cases fuel' <;> rfl
  | succ n ih =>
    intro fuel' l h h'
    cases l with
    | nil => cases fuel' <;> rfl
    | cons b rest =>
      cases fuel' with
      | zero => simp at h'
      | succ m =>
        simp only [utf8DecodeF]
        have hd := decodeOne_length b rest
        simp only [List.length_cons] at h h'
        have h1 : (decodeOne b rest).2.length ≤ n := by omega
        have h2 : (decodeOne b rest).2.length ≤ m := by omega
        rw [ih m _ h1 h2]

theorem utf8Decode_nil : utf8Decode [] = [] := rfl

theorem utf8Decode_cons (b : Nat) (rest : List Nat) :
    utf8Decode (b :: rest) = (decodeOne b rest).1 :: utf8Decode (decodeOne b rest).2 := by
  unfold utf8Decode
  simp only [List.length_cons, utf8DecodeF]
  rw [utf8DecodeF_congr rest.length (decodeOne b rest).2.length _
    (decodeOne_length b rest) (Nat.le_refl _)]

theorem dropWhileLenLe {α : Type} (p : α → Bool) (l : List α) :
    (l.dropWhile p).length ≤ l.length := by
  induction l with
  | nil => simp
  | cons c rest ih => by_cases h : p c <;> simp [List.dropWhile, h] <;> omega

theorem matchContraction_length {l cl r : List Char}
    (h : matchContraction l = some (cl, r)) : r.length + 2 ≤ l.length := by
  match l with
  | [] => simp [matchContraction] at h
  | [a] => simp [matchContraction] at h
  | a :: c :: rest =>
    simp only [matchContraction] at h
    split at h
    · split at h
      · simp only [Option.some.injEq, Prod.mk.injEq] at h
        obtain ⟨h1, h2⟩ := h
        subst h2
        simp only [List.length_cons]
        omega
      · split at h
        · split at h
          · rename_i d rest1 _
            simp only [Option.some.injEq, Prod.mk.injEq] at h
            obtain ⟨h1, h2⟩ := h
            subst h2
            simp only [List.length_cons]
            omega
          · exact absurd h (by simp)
        · exact absurd h (by simp)
    · exact absurd h (by simp)

theorem pretokF_congr :
    ∀ (fuel fuel' : Nat) (l : List Char), l.length ≤ fuel → l.length ≤ fuel' →
      pretokF fuel l = pretokF fuel' l := by
  intro fuel
  induction fuel with
  | zero =>
    intro fuel' l h h'
    have : l = [] := List.length_eq_zero.mp (Nat.le_zero.mp h)
    subst this
    cases fuel' <;> rfl
  | succ n ih =>
    intro fuel' l h h'
    cases l with
    | nil => cases fuel' <;> rfl
    | cons c rest =>
      cases fuel' with
      | zero => simp at h'
      | succ m =>
        simp only [List.length_cons] at h h'
        rcases hmc : matchContraction (c :: rest) with - | ⟨cl, rest1⟩
        · simp only [pretokF, hmc]
          have hlet := dropWhileLenLe isLetterC rest
          have hdig := dropWhileLenLe isDigitC rest
          have hsp := dropWhileLenLe isSpaceC rest
          have hpun := dropWhileLenLe isPunctC rest
          split
          · rw [ih m _ (by omega) (by omega)]
          · split
            · rw [ih m _ (by omega) (by omega)]
            · split
              · rw [ih m _ (by omega) (by omega)]
              · rw [ih m _ (by omega) (by omega)]
        · have hml := matchContraction_length hmc
          simp only [List.length_cons] at hml
          simp only [pretokF, hmc]
          rw [ih m _ (by omega) (by omega)]

theorem pretokenize_nil : pretokenize [] = [] := rfl

theorem pretokF_succ_to_pretokenize (n : Nat) (l : List Char) (h : l.length ≤ n) :
    pretokF n l = pretokenize l :=
  pretokF_congr n l.length l h (Nat.le_refl _)

theorem pretokenize_contr {c : Char} {rest cl r : List Char}
    (h : matchContraction (c :: rest) = some (cl, r)) :
    pretokenize (c :: rest) = cl.map lowerC :: pretokenize r := by
  have hml := matchContraction_length h
  simp only [List.length_cons] at hml
  show pretokF (c :: rest).length (c :: rest) = _
  simp only [List.length_cons, pretokF, h]
  rw [pretokF_succ_to_pretokenize rest.length r (by omega)]

theorem pretokenize_letter {c : Char} {rest : List Char}
    (hm : matchContraction (c :: rest) = none) (hc : isLetterC c = true) :
    pretokenize (c :: rest) =
      ((c :: rest.takeWhile isLetterC).map lowerC) ::
        pretokenize (rest.dropWhile isLetterC) := by
  show pretokF (c :: rest).length (c :: rest) = _
  simp only [List.length_cons, pretokF, hm, hc, if_pos]
  rw [pretokF_succ_to_pretokenize rest.length _ (dropWhileLenLe isLetterC rest)]

theorem pretokenize_digit {c : Char} {rest : List Char}
    (hm : matchContraction (c :: rest) = none) (hc1 : isLetterC c = false)
    (hc2 : isDigitC c = true) :
    pretokenize (c :: rest) =
      ((c :: rest.takeWhile isDigitC).map lowerC) ::
        pretokenize (rest.dropWhile isDigitC) := by
  show pretokF (c :: rest).length (c :: rest) = _
  simp only [List.length_cons, pretokF, hm, hc1, hc2, Bool.false_eq_true, if_false, if_pos]
  rw [pretokF_succ_to_pretokenize rest.length _ (dropWhileLenLe isDigitC rest)]

theorem pretokenize_space {c : Char} {rest : List Char}
    (hm : matchContraction (c :: rest) = none) (hc1 : isLetterC c = false)
    (hc2 : isDigitC c = false) (hc3 : isSpaceC c = true) :
    pretokenize (c :: rest) = pretokenize (rest.dropWhile isSpaceC) := by
  show pretokF (c :: rest).length (c :: rest) = _
  simp only [List.length_cons, pretokF, hm, hc1, hc2, hc3, Bool.false_eq_true, if_false, if_pos]
  rw [pretokF_succ_to_pretokenize rest.length _ (dropWhileLenLe isSpaceC rest)]

theorem pretokenize_punct {c : Char} {rest : List Char}
    (hm : matchContraction (c :: rest) = none) (hc1 : isLetterC c = false)
    (hc2 : isDigitC c = false) (hc3 : isSpaceC c = false) :
    pretokenize (c :: rest) =
      ((c :: rest.takeWhile isPunctC).map lowerC) ::
        pretokenize (rest.dropWhile isPunctC) := by
  show pretokF (c :: rest).length (c :: rest) = _
  simp only [List.length_cons, pretokF, hm, hc1, hc2, hc3, Bool.false_eq_true, if_false]
  rw [pretokF_succ_to_pretokenize rest.length _ (dropWhileLenLe isPunctC rest)]

theorem rankOf_mem : ∀ {merges : List (List Char × List Char)}
    {p : List Char × List Char} {r : Nat}, rankOf merges p = some r → p ∈ merges := by
  intro merges
  induction merges with
  | nil => intro p r h; simp [rankOf] at h
  | cons q rest ih =>
    intro p r h
    simp only [rankOf] at h
    split at h
    · rename_i hq
      simp [hq]
    · rcases Option.map_eq_some'.mp h with ⟨r0, hr0, -⟩
      exact List.mem_cons_of_mem _ (ih hr0)

theorem mergePair_length_le (p : List Char × List Char) (l : List (List Char)) :
    (mergePair p l).length ≤ l.length := by
  induction l using mergePair.induct p with
  | case1 a b rest hab ih =>
    simp only [mergePair, if_pos hab, List.length_cons]
    omega
  | case2 a b rest hab ih =>
    simp only [mergePair, if_neg hab, List.length_cons]
    simp only [List.length_cons] at ih
    omega
  | case3 l hcc =>
    match l, hcc with
    | [], _ => simp [mergePair]
    | [a], _ => simp [mergePair]
    | a :: b :: rest, hcc => exact (hcc a b rest rfl).elim

theorem mergePair_length_lt (p : List Char × List Char) (l : List (List Char))
    (h : p ∈ adjPairs l) : (mergePair p l).length < l.length := by
  induction l using mergePair.induct p with
  | case1 a b rest hab ih =>
    have h2 := mergePair_length_le p rest
    simp only [mergePair, if_pos hab, List.length_cons]
    omega
  | case2 a b rest hab ih =>
    simp only [adjPairs, List.mem_cons] at h
    rcases h with h | h
    · exact absurd ⟨congrArg Prod.fst h.symm, congrArg Prod.snd h.symm⟩ hab
    · have h2 := ih h
      simp only [mergePair, if_neg hab, List.length_cons]
      simp only [List.length_cons] at h2
      omega
  | case3 l hcc =>
    exfalso
    match l, hcc with
    | [], _ => simp [adjPairs] at h
    | [a], _ => simp [adjPairs] at h
    | a :: b :: rest, hcc => exact (hcc a b rest rfl).elim

theorem foldl_pick_mem {β : Type} (g : β → β → β) (hg : ∀ a y, g a y = a ∨ g a y = y) :
    ∀ (xs : List β) (x : β), xs.foldl g x ∈ x :: xs := by
  intro xs
  induction xs with
  | nil => simp
  | cons y ys ih =>
    intro x
    simp only [List.foldl]
    have h1 := ih (g x y)
    rcases List.mem_cons.mp h1 with h2 | h2
    · rw [h2]
      rcases hg x y with h3 | h3 <;> simp [h3]
    · simp [h2]

theorem bestPair_spec {merges : List (List Char × List Char)}
    {syms : List (List Char)} {p : List Char × List Char}
    (h : bestPair merges syms = some p) :
    p ∈ adjPairs syms ∧ ∃ r, rankOf merges p = some r := by
  unfold bestPair at h
  split at h
  · exact absurd h (by simp)
  · rename_i x xs heq
    simp only [Option.some.injEq] at h
    have hmem : (xs.foldl (fun a y => if y.2 < a.2 then y else a) x) ∈ x :: xs :=
      foldl_pick_mem (fun a y => if y.2 < a.2 then y else a)
        (fun a y => by by_cases hlt : y.2 < a.2 <;> simp [hlt]) xs x
    have hmem2 : (xs.foldl (fun a y => if y.2 < a.2 then y else a) x) ∈
        ranked merges syms := by
      rw [heq]; exact hmem
    unfold ranked at hmem2
    rcases List.mem_filterMap.mp hmem2 with ⟨q, hq, hmap⟩
    rcases Option.map_eq_some'.mp hmap with ⟨r, hrank, hr⟩
    have hqp : q = p := by rw [← h, ← hr]
    subst hqp
    exact ⟨hq, r, hrank⟩

theorem bestPair_mem {merges : List (List Char × List Char)}
    {syms : List (List Char)} {p : List Char × List Char}
    (h : bestPair merges syms = some p) : p ∈ adjPairs syms :=
  (bestPair_spec h).1

theorem bestPair_nil (merges : List (List Char × List Char)) :
    bestPair merges [] = none := rfl

theorem bpeLoopF_congr (merges : List (List Char × List Char)) :
    ∀ (fuel fuel' : Nat) (syms : List (List Char)),
      syms.length ≤ fuel → syms.length ≤ fuel' →
      bpeLoopF fuel merges syms = bpeLoopF fuel' merges syms := by
  intro fuel
  induction fuel with
  | zero =>
    intro fuel' syms h h'
    have : syms = [] := List.length_eq_zero.mp (Nat.le_zero.mp h)
    subst this
    cases fuel' with
    | zero => rfl
    | succ m => simp [bpeLoopF, bestPair_nil]
  | succ n ih =>
    intro fuel' syms h h'
    rcases hb : bestPair merges syms with - | p
    · cases fuel' with
      | zero =>
        have : syms = [] := List.length_eq_zero.mp (Nat.le_zero.mp h')
        subst this
        rfl
      | succ m => simp [bpeLoopF, hb]
    · have hlt := mergePair_length_lt p syms (bestPair_mem hb)
      cases fuel' with
      | zero =>
        have : syms = [] := List.length_eq_zero.mp (Nat.le_zero.mp h')
        subst this
        simp [bestPair_nil] at hb
      | succ m =>
        simp only [bpeLoopF, hb]
        exact ih m _ (by omega) (by omega)

theorem bpeLoop_none {merges : List (List Char × List Char)}
    {syms : List (List Char)} (hb : bestPair merges syms = none) :
    bpeLoop merges syms = syms := by
  unfold bpeLoop
  cases hl : syms.length with
  | zero => rfl
  | succ k => simp [bpeLoopF, hb]

theorem bpeLoop_some {merges : List (List Char × List Char)}
    {syms : List (List Char)} {p : List Char × List Char}
    (hb : bestPair merges syms = some p) :
    bpeLoop merges syms = bpeLoop merges (mergePair p syms) := by
  unfold bpeLoop
  have hlt := mergePair_length_lt p syms (bestPair_mem hb)
  cases hl : syms.length with
  | zero =>
    have : syms = [] := List.length_eq_zero.mp (by omega)
    subst this
    simp [bestPair_nil] at hb
  | succ k =>
    simp only [bpeLoopF, hb]
    rw [hl] at hlt
    exact bpeLoopF_congr merges k (mergePair p syms).length _ (by omega) (Nat.le_refl _)

theorem assembleRow_length (vt : VocabularyTable) (c : Nat) (ids : List Nat)
    (h2 : 2 ≤ c) : (assembleRow vt c ids).length = c := by
  unfold assembleRow
  split
  · simp only [List.length_cons, List.length_append, List.length_replicate,
      List.length_nil]
    omega
  · simp only [List.length_cons, List.length_append, List.length_take,
      List.length_nil]
    omega

theorem assembleRow_head (vt : VocabularyTable) (c : Nat) (ids : List Nat) :
    (assembleRow vt c ids).head? = some vt.sotId := by
  unfold assembleRow
  split <;> rfl

theorem assembleRow_last_of_trunc (vt : VocabularyTable) (c : Nat) (ids : List Nat)
    (hlong : ¬ ids.length + 2 ≤ c) :
    (assembleRow vt c ids).getLast? = some vt.eotId := by
  unfold assembleRow
  rw [if_neg hlong,
    show vt.sotId :: ids.take (c - 2) ++ [vt.eotId] =
      (vt.sotId :: ids.take (c - 2)) ++ [vt.eotId] from rfl]
  exact List.getLast?_concat _

theorem assembleRow_structure (vt : VocabularyTable) (c : Nat) (ids : List Nat) :
    ∃ ids0 : List Nat, assembleRow vt c ids =
      vt.sotId :: ids0 ++ [vt.eotId] ++ List.replicate (c - (ids0.length + 2)) 0 := by
  unfold assembleRow
  split
  · exact ⟨ids, rfl⟩
  · refine ⟨ids.take (c - 2), ?_⟩
    have hlen : (ids.take (c - 2)).length = c - 2 := by
      rw [List.length_take]
      omega
    rw [hlen, show c - (c - 2 + 2) = 0 from by omega]
    simp

theorem encodeTexts_cons_some {vt : VocabularyTable} {t : List Char}
    {ts : List (List Char)} {ids : List Nat} {idss : List (List Nat)}
    (h1 : encode vt t = some ids) (h2 : encodeTexts vt ts = some idss) :
    encodeTexts vt (t :: ts) = some (ids :: idss) := by
  simp [encodeTexts, h1, h2]

theorem encodeTexts_length {vt : VocabularyTable} :
    ∀ {ts : List (List Char)} {idss : List (List Nat)},
      encodeTexts vt ts = some idss → idss.length = ts.length := by
  intro ts
  induction ts with
  | nil =>
    intro idss h
    simp only [encodeTexts, Option.some.injEq] at h
    simp [← h]
  | cons t rest ih =>
    intro idss h
    simp only [encodeTexts] at h
    rcases he : encode vt t with - | ids <;> rw [he] at h
    · exact absurd h (by simp)
    · rcases hr : encodeTexts vt rest with - | idss0 <;> rw [hr] at h
      · exact absurd h (by simp)
      · simp only [Option.some.injEq] at h
        subst h
        simp [ih hr]

/-- C1: `tokenize_batch` reproduces the spec's concrete scenarios exactly:
`tokenize_batch("blaa bla", context_length=10)` returns the single row
`[49406, 2205, 320, 19630, 49407, 0, 0, 0, 0, 0]`, and
`tokenize_batch(["Hi", "How are you?", "I'm fine, thanks!"], context_length=6)`
returns exactly the three rows `[49406,1883,49407,0,0,0]`,
`[49406,829,631,592,286,49407]`, `[49406,328,880,3797,267,49407]`. -/
theorem tokenize_batch_scenarios :
    tokenizeBatchSingle clipVT "blaa bla".data 10 =
      Except.ok [[49406, 2205, 320, 19630, 49407, 0, 0, 0, 0, 0]] ∧
    tokenizeBatch clipVT ["Hi".data, "How are you?".data, imFine] 6 =
      Except.ok [[49406, 1883, 49407, 0, 0, 0], [49406, 829, 631, 592, 286, 49407],
        [49406, 328, 880, 3797, 267, 49407]] := by
  constructor
  · decide
  · decide

/-- C2: `encode("Hello world!!!")` returns exactly the ID sequence
`[3306, 1002, 995]`, with no start-of-text or end-of-text marker included. -/
theorem encode_hello_world :
    encode clipVT "Hello world!!!".data = some [3306, 1002, 995] := by decide

/-- C3: `decode([320, 2533, 6765, 320, 10297])` returns exactly the string
`"a person riding a motorcycle "`, the word-boundary marker of each word-final
token being replaced by a literal space, including the trailing one. -/
theorem decode_motorcycle :
    decode clipVT [320, 2533, 6765, 320, 10297] =
      Except.ok ("a person riding a motorcycle ".data) := by decide

theorem tokenizeBatch_ok {vt : VocabularyTable} {texts : List (List Char)}
    {c : Nat} {idss : List (List Nat)} (h2 : 2 ≤ c)
    (henc : encodeTexts vt texts = some idss) :
    tokenizeBatch vt texts c = Except.ok (idss.map (assembleRow vt c)) := by
  unfold tokenizeBatch
  rw [if_neg (by omega), henc]

/-- C4: for every text and context length `c ≥ 2`, if the encoded text together
with the two markers does not fit (`|encode text| + 2 > c`), the corresponding
row of `tokenize_batch` has length exactly `c` and its final element is the
end-of-text ID — only content tokens are dropped, never the markers. -/
theorem truncation_invariant (vt : VocabularyTable) (text : List Char) (c : Nat)
    (ids : List Nat) (h2 : 2 ≤ c) (henc : encode vt text = some ids)
    (hlong : c < ids.length + 2) :
    ∃ row, tokenizeBatchSingle vt text c = Except.ok [row] ∧
      row.length = c ∧ row.getLast? = some vt.eotId := by
  refine ⟨assembleRow vt c ids, ?_, assembleRow_length vt c ids h2,
    assembleRow_last_of_trunc vt c ids (by omega)⟩
  unfold tokenizeBatchSingle
  rw [tokenizeBatch_ok h2
    (encodeTexts_cons_some henc (rfl : encodeTexts vt [] = some []))]
  rfl

/-- Witness for C4 at the truncated scenario of the spec:
`tokenize_batch(["I'm fine, thanks!"], context_length=6)`. -/
theorem truncation_invariant_witness :
    ∃ row, tokenizeBatchSingle clipVT imFine 6 = Except.ok [row] ∧
      row.length = 6 ∧ row.getLast? = some clipVT.eotId :=
  truncation_invariant clipVT imFine 6 [328, 880, 3797, 267, 9000, 9001]
    (by decide) (by decide) (by decide)

/-- Counterexample to C5 as literally stated: a row in which a 0 (a content
token carrying the valid vocabulary ID 0, which collides with the padding
value) is followed by non-zero elements, so the row's first zero does not start
the padding. -/
theorem padding_claim_counterexample :
    tokenizeBatch padVT ["!?".data] 6 = Except.ok [[49406, 0, 7, 49407, 0, 0]] ∧
    zeroSuffix [49406, 0, 7, 49407, 0, 0] = false := by
  constructor
  · decide
  · decide

/-- C5 (amended): for every batch that encodes successfully and every context
length `c ≥ 2`, every row of `tokenize_batch` has length exactly `c`, begins
with the start-of-text ID, and consists of the start marker, the content
tokens, the end marker and then a contiguous all-zero padding suffix.  (The
literal claim — that the first 0 of a row is never followed by a non-zero
element — additionally needs 0 not to occur among the content token IDs, since
the pad value 0 is itself a valid vocabulary ID; see the counterexample.) -/
theorem padding_invariant_amended (vt : VocabularyTable)
    (texts : List (List Char)) (c : Nat) (idss : List (List Nat)) (h2 : 2 ≤ c)
    (henc : encodeTexts vt texts = some idss) :
    ∃ rows, tokenizeBatch vt texts c = Except.ok rows ∧
      rows.length = texts.length ∧
      ∀ r ∈ rows, r.length = c ∧ r.head? = some vt.sotId ∧
        ∃ ids0 : List Nat, r = vt.sotId :: ids0 ++ [vt.eotId] ++
          List.replicate (c - (ids0.length + 2)) 0 := by
  refine ⟨idss.map (assembleRow vt c), tokenizeBatch_ok h2 henc, ?_, ?_⟩
  · rw [List.length_map]
    exact encodeTexts_length henc
  · intro r hr
    rcases List.mem_map.mp hr with ⟨ids, _, hrow⟩
    exact ⟨hrow ▸ assembleRow_length vt c ids h2, hrow ▸ assembleRow_head vt c ids,
      hrow ▸ assembleRow_structure vt c ids⟩

/-- Witness for C5 (amended) at the scenario batch
`tokenize_batch(["Hi"], context_length=4)`. -/
theorem padding_invariant_amended_witness :
    ∃ rows, tokenizeBatch clipVT ["Hi".data] 4 = Except.ok rows ∧
      rows.length = 1 ∧
      ∀ r ∈ rows, r.length = 4 ∧ r.head? = some clipVT.sotId ∧
        ∃ ids0 : List Nat, r = clipVT.sotId :: ids0 ++ [clipVT.eotId] ++
          List.replicate (4 - (ids0.length + 2)) 0 := by
  have h := padding_invariant_amended clipVT ["Hi".data] 4 [[1883]]
    (by decide) (by decide)
  simpa using h

theorem mem_joinAll {α : Type} {s : α} :
    ∀ {ll : List (List α)}, s ∈ joinAll ll ↔ ∃ l ∈ ll, s ∈ l := by
  intro ll
  induction ll with
  | nil => simp [joinAll]
  | cons x rest ih => simp [joinAll, List.mem_append, ih]

theorem mergePair_subset (p : List Char × List Char) (l : List (List Char)) :
    ∀ s ∈ mergePair p l, s ∈ l ∨ s = p.1 ++ p.2 := by
  induction l using mergePair.induct p with
  | case1 a b rest hab ih =>
    intro s hs
    simp only [mergePair, if_pos hab] at hs
    rcases List.mem_cons.mp hs with h1 | h1
    · right
      rw [h1, hab.1, hab.2]
    · rcases ih s h1 with h2 | h2
      · exact Or.inl (List.mem_cons_of_mem _ (List.mem_cons_of_mem _ h2))
      · exact Or.inr h2
  | case2 a b rest hab ih =>
    intro s hs
    simp only [mergePair, if_neg hab] at hs
    rcases List.mem_cons.mp hs with h1 | h1
    · exact Or.inl (h1 ▸ List.mem_cons_self _ _)
    · rcases ih s h1 with h2 | h2
      · exact Or.inl (List.mem_cons_of_mem _ h2)
      · exact Or.inr h2
  | case3 l hcc =>
    intro s hs
    match l, hcc with
    | [], _ => exact Or.inl hs
    | [a], _ => exact Or.inl hs
    | a :: b :: rest, hcc => exact (hcc a b rest rfl).elim

theorem bpeLoop_pred (merges : List (List Char × List Char)) (P : List Char → Prop)
    (hm : ∀ q ∈ merges, P (q.1 ++ q.2)) :
    ∀ (n : Nat) (syms : List (List Char)), syms.length ≤ n →
      (∀ s ∈ syms, P s) → ∀ s ∈ bpeLoop merges syms, P s := by
  intro n
  induction n with
  | zero =>
    intro syms h hs s hmem
    have : syms = [] := List.length_eq_zero.mp (Nat.le_zero.mp h)
    subst this
    rw [bpeLoop_none (bestPair_nil merges)] at hmem
    exact absurd hmem (by simp)
  | succ k ih =>
    intro syms h hs s hmem
    rcases hb : bestPair merges syms with - | p
    · rw [bpeLoop_none hb] at hmem
      exact hs s hmem
    · rw [bpeLoop_some hb] at hmem
      have hlt := mergePair_length_lt p syms (bestPair_mem hb)
      refine ih (mergePair p syms) (by omega) ?_ s hmem
      intro t ht
      rcases mergePair_subset p syms t ht with h1 | h1
      · exact hs t h1
      · rcases (bestPair_spec hb).2 with ⟨r, hr⟩
        exact h1 ▸ hm p (rankOf_mem hr)

theorem withEnd_mem :
    ∀ (l : List (List Char)) (s : List Char), s ∈ withEnd l →
      s ∈ l ∨ ∃ t ∈ l, s = t ++ [endChar] := by
  intro l
  induction l with
  | nil =>
    intro s hs
    exact absurd hs (by simp [withEnd])
  | cons x rest ih =>
    intro s hs
    cases rest with
    | nil =>
      simp only [withEnd, List.mem_singleton] at hs
      exact Or.inr ⟨x, by simp, hs⟩
    | cons y t =>
      simp only [withEnd] at hs
      rcases List.mem_cons.mp hs with h1 | h1
      · exact Or.inl (h1 ▸ List.mem_cons_self _ _)
      · rcases ih s h1 with h2 | ⟨u, hu, he⟩
        · exact Or.inl (List.mem_cons_of_mem _ h2)
        · exact Or.inr ⟨u, List.mem_cons_of_mem _ hu, he⟩

theorem byteChars_mem (cluster : List Char) (ch : Char) (h : ch ∈ byteChars cluster) :
    ∃ b, b < 256 ∧ ch = byteToChar b := by
  unfold byteChars at h
  rcases List.mem_map.mp h with ⟨b, hb, rfl⟩
  rcases mem_joinAll.mp hb with ⟨bl, hbl, hbmem⟩
  rcases List.mem_map.mp hbl with ⟨c, -, rfl⟩
  exact ⟨b, utf8Bytes_lt256 c b hbmem, rfl⟩

theorem initSymbols_mem (cluster : List Char) (s : List Char)
    (hs : s ∈ initSymbols cluster) :
    (∃ b, b < 256 ∧ s = [byteToChar b]) ∨
      (∃ b, b < 256 ∧ s = [byteToChar b, endChar]) := by
  unfold initSymbols at hs
  rcases withEnd_mem _ s hs with h1 | ⟨t, ht, he⟩
  · rcases List.mem_map.mp h1 with ⟨ch, hch, rfl⟩
    rcases byteChars_mem cluster ch hch with ⟨b, hb, rfl⟩
    exact Or.inl ⟨b, hb, rfl⟩
  · rcases List.mem_map.mp ht with ⟨ch, hch, rfl⟩
    rcases byteChars_mem cluster ch hch with ⟨b, hb, rfl⟩
    exact Or.inr ⟨b, hb, he⟩

theorem lookupIds_isSome {vt : VocabularyTable} :
    ∀ {tokens : List (List Char)},
      (∀ t ∈ tokens, (lookupId vt t).isSome = true) →
      (lookupIds vt tokens).isSome = true := by
  intro tokens
  induction tokens with
  | nil => intro _; rfl
  | cons t ts ih =>
    intro h
    have h1 := h t (by simp)
    have h2 := ih (fun u hu => h u (List.mem_cons_of_mem _ hu))
    rcases ho : lookupId vt t with - | i
    · rw [ho] at h1
      simp at h1
    · rcases ho2 : lookupIds vt ts with - | is
      · rw [ho2] at h2
        simp at h2
      · simp [lookupIds, ho, ho2]

/-- Core coverage lemma: under byte-fallback coverage of the vocabulary, every
`encode` call succeeds (the `UnknownToken` branch is unreachable). -/
theorem encode_isSome_of_coverage (vt : VocabularyTable)
    (hbyte : ∀ b, b < 256 → (lookupId vt [byteToChar b]).isSome = true ∧
      (lookupId vt [byteToChar b, endChar]).isSome = true)
    (hmerge : ∀ q ∈ vt.merges, (lookupId vt (q.1 ++ q.2)).isSome = true)
    (text : List Char) : (encode vt text).isSome = true := by
  unfold encode
  apply lookupIds_isSome
  intro t ht
  rcases mem_joinAll.mp ht with ⟨toks, htoks, htmem⟩
  rcases List.mem_map.mp htoks with ⟨cluster, -, rfl⟩
  unfold bpe at htmem
  refine bpeLoop_pred vt.merges (fun s => (lookupId vt s).isSome = true) hmerge
    (initSymbols cluster).length (initSymbols cluster) (Nat.le_refl _) ?_ t htmem
  intro s hs
  rcases initSymbols_mem cluster s hs with ⟨b, hb, rfl⟩ | ⟨b, hb, rfl⟩
  · exact (hbyte b hb).1
  · exact (hbyte b hb).2

theorem encodeTexts_isSome_of_coverage (vt : VocabularyTable)
    (hbyte : ∀ b, b < 256 → (lookupId vt [byteToChar b]).isSome = true ∧
      (lookupId vt [byteToChar b, endChar]).isSome = true)
    (hmerge : ∀ q ∈ vt.merges, (lookupId vt (q.1 ++ q.2)).isSome = true)
    (texts : List (List Char)) : ∃ idss, encodeTexts vt texts = some idss := by
  induction texts with
  | nil => exact ⟨[], rfl⟩
  | cons t ts ih =>
    rcases ih with ⟨idss, hih⟩
    have h1 := encode_isSome_of_coverage vt hbyte hmerge t
    rcases he : encode vt t with - | ids
    · rw [he] at h1
      simp at h1
    · exact ⟨ids :: idss, encodeTexts_cons_some he hih⟩

/-- C7: for every string, `encode` succeeds and returns an ID sequence — under
the byte-fallback coverage of the vocabulary (every single-byte token and every
merge result is in the table), the `UnknownToken` branch of ID lookup is
unreachable during `encode`. -/
theorem encode_never_fails (vt : VocabularyTable)
    (hbyte : ∀ b, b < 256 → (lookupId vt [byteToChar b]).isSome = true ∧
      (lookupId vt [byteToChar b, endChar]).isSome = true)
    (hmerge : ∀ q ∈ vt.merges, (lookupId vt (q.1 ++ q.2)).isSome = true)
    (text : List Char) : ∃ ids, encode vt text = some ids := by
  have h := encode_isSome_of_coverage vt hbyte hmerge text
  rcases he : encode vt text with - | ids
  · rw [he] at h
    simp at h
  · exact ⟨ids, rfl⟩

theorem alookup_isSome_of_mem {α β : Type} [DecidableEq α] {l : List (α × β)}
    {k : α} {v : β} (hmem : (k, v) ∈ l) : (alookup l k).isSome = true := by
  induction l with
  | nil => exact absurd hmem (by simp)
  | cons e rest ih =>
    rcases List.mem_cons.mp hmem with h1 | h1
    · rcases e with ⟨k0, v0⟩
      simp only [Prod.mk.injEq] at h1
      simp [alookup, h1.1]
    · rcases e with ⟨k0, v0⟩
      by_cases hk : k0 = k <;> simp [alookup, hk, ih h1]

theorem fullVT_coverage : ∀ b, b < 256 →
    (lookupId fullVT [byteToChar b]).isSome = true ∧
    (lookupId fullVT [byteToChar b, endChar]).isSome = true := by
  intro b hb
  constructor
  · exact alookup_isSome_of_mem (v := b)
      (List.mem_append_left _ (List.mem_map.mpr ⟨b, List.mem_range.mpr hb, rfl⟩))
  · exact alookup_isSome_of_mem (v := 256 + b)
      (List.mem_append_right _ (List.mem_map.mpr ⟨b, List.mem_range.mpr hb, rfl⟩))

/-- Witness for C7: the byte-covering table encodes an arbitrary Unicode
string (here with characters of one-, two- and three-byte UTF-8 encodings). -/
theorem encode_never_fails_witness :
    ∃ ids, encode fullVT ("héllo wörld ∀x".data) = some ids :=
  encode_never_fails fullVT fullVT_coverage
    (fun q hq => absurd hq (by simp [fullVT])) ("héllo wörld ∀x".data)

/-- C8: `tokenize_batch` fails with `InvalidContextLength` exactly when the
context length is below 2; for every context length of at least 2 (and a
byte-covering vocabulary) the call succeeds and all rows have exactly the
context length. -/
theorem context_length_behavior (vt : VocabularyTable)
    (texts : List (List Char)) (c : Nat)
    (hbyte : ∀ b, b < 256 → (lookupId vt [byteToChar b]).isSome = true ∧
      (lookupId vt [byteToChar b, endChar]).isSome = true)
    (hmerge : ∀ q ∈ vt.merges, (lookupId vt (q.1 ++ q.2)).isSome = true) :
    (tokenizeBatch vt texts c = Except.error TokError.invalidContextLength ↔ c < 2) ∧
    (2 ≤ c → ∃ rows, tokenizeBatch vt texts c = Except.ok rows ∧
      rows.length = texts.length ∧ ∀ r ∈ rows, r.length = c) := by
  rcases encodeTexts_isSome_of_coverage vt hbyte hmerge texts with ⟨idss, hidss⟩
  constructor
  · constructor
    · intro h
      by_contra hc
      rw [tokenizeBatch_ok (by omega) hidss] at h
      exact absurd h (by simp)
    · intro h
      unfold tokenizeBatch
      rw [if_pos h]
  · intro h2
    refine ⟨idss.map (assembleRow vt c), tokenizeBatch_ok h2 hidss, ?_, ?_⟩
    · rw [List.length_map]
      exact encodeTexts_length hidss
    · intro r hr
      rcases List.mem_map.mp hr with ⟨ids, -, rfl⟩
      exact assembleRow_length vt c ids h2

/-- Witness for C8 at the byte-covering table, a batch of two texts and
context length 3. -/
theorem context_length_behavior_witness :
    (tokenizeBatch fullVT ["ab".data, "c!".data] 3 =
        Except.error TokError.invalidContextLength ↔ 3 < 2) ∧
    (2 ≤ 3 → ∃ rows, tokenizeBatch fullVT ["ab".data, "c!".data] 3 = Except.ok rows ∧
      rows.length = 2 ∧ ∀ r ∈ rows, r.length = 3) :=
  context_length_behavior fullVT ["ab".data, "c!".data] 3 fullVT_coverage
    (fun q hq => absurd hq (by simp [fullVT]))

theorem decodeTokens_error_iff (vt : VocabularyTable) :
    ∀ ids : List Nat, decodeTokens vt ids = Except.error TokError.invalidID ↔
      ∃ id ∈ ids, id ≠ vt.sotId ∧ id ≠ vt.eotId ∧ lookupStr vt id = none := by
  intro ids
  induction ids with
  | nil => simp [decodeTokens]
  | cons id rest ih =>
    by_cases hsp : id = vt.sotId ∨ id = vt.eotId
    · have hd : decodeToken vt id = Except.ok [] := by
        unfold decodeToken
        rw [if_pos hsp]
      constructor
      · intro h
        simp only [decodeTokens, hd] at h
        rcases hr : decodeTokens vt rest with e | t <;> rw [hr] at h
        · rcases ih.mp (by rw [hr, show e = TokError.invalidID from by
            rcases hr2 : e with - | - | - <;> simp_all]) with ⟨i, hi, hbad⟩
          exact ⟨i, List.mem_cons_of_mem _ hi, hbad⟩
        · exact absurd h (by simp)
      · intro ⟨i, hi, hbad⟩
        rcases List.mem_cons.mp hi with h1 | h1
        · exact absurd (h1 ▸ hsp) (by tauto)
        · have := ih.mpr ⟨i, h1, hbad⟩
          simp [decodeTokens, hd, this]
    · push_neg at hsp
      rcases hl : lookupStr vt id with - | s
      · have hd : decodeToken vt id = Except.error TokError.invalidID := by
          unfold decodeToken
          rw [if_neg (by tauto), hl]
        constructor
        · intro _
          exact ⟨id, List.mem_cons_self _ _, hsp.1, hsp.2, hl⟩
        · intro _
          simp [decodeTokens, hd]
      · have hd : decodeToken vt id = Except.ok s := by
          unfold decodeToken
          rw [if_neg (by tauto), hl]
        constructor
        · intro h
          simp only [decodeTokens, hd] at h
          rcases hr : decodeTokens vt rest with e | t <;> rw [hr] at h
          · rcases ih.mp (by rw [hr, show e = TokError.invalidID from by
              rcases hr2 : e with - | - | - <;> simp_all]) with ⟨i, hi, hbad⟩
            exact ⟨i, List.mem_cons_of_mem _ hi, hbad⟩
          · exact absurd h (by simp)
        · intro ⟨i, hi, hbad⟩
          rcases List.mem_cons.mp hi with h1 | h1
          · subst h1
            exact absurd hl (by rw [hbad.2.2]; simp)
          · have := ih.mpr ⟨i, h1, hbad⟩
            simp [decodeTokens, hd, this]

theorem decodeTokens_insert_special (vt : VocabularyTable) (s : Nat)
    (hs : s = vt.sotId ∨ s = vt.eotId) :
    ∀ ids1 ids2 : List Nat,
      (∃ e, decodeTokens vt (ids1 ++ s :: ids2) = Except.error e ∧
        decodeTokens vt (ids1 ++ ids2) = Except.error e) ∨
      (∃ t1 t2, decodeTokens vt (ids1 ++ s :: ids2) = Except.ok t1 ∧
        decodeTokens vt (ids1 ++ ids2) = Except.ok t2 ∧ joinAll t1 = joinAll t2) := by
  have hd : decodeToken vt s = Except.ok [] := by
    unfold decodeToken
    rw [if_pos hs]
  intro ids1
  induction ids1 with
  | nil =>
    intro ids2
    rcases hr : decodeTokens vt ids2 with e | t
    · left
      refine ⟨e, ?_, hr⟩
      simp [decodeTokens, hd, hr]
    · right
      refine ⟨[] :: t, t, ?_, hr, by simp [joinAll]⟩
      simp [decodeTokens, hd, hr]
  | cons id rest ih =>
    intro ids2
    rcases hdi : decodeToken vt id with e | u
    · left
      refine ⟨e, ?_, ?_⟩ <;> simp [decodeTokens, hdi]
    · rcases ih ids2 with ⟨e, h1, h2⟩ | ⟨t1, t2, h1, h2, hj⟩
      · left
        refine ⟨e, ?_, ?_⟩ <;> simp [decodeTokens, hdi, h1, h2]
      · right
        refine ⟨u :: t1, u :: t2, ?_, ?_, ?_⟩
        · simp [decodeTokens, hdi, h1]
        · simp [decodeTokens, hdi, h2]
        · simp [joinAll, hj]

/-- C9: `decode` fails with `InvalidID` exactly when some ID lies outside the
valid vocabulary ID range (and is not a special-token ID) — never silently
clamped — while an ID equal to the start-of-text or end-of-text ID is mapped to
the empty string rather than causing an error (inserting it anywhere in the
ID sequence leaves the decoded text unchanged). -/
theorem decode_invalidID_iff (vt : VocabularyTable) (ids ids1 ids2 : List Nat)
    (s : Nat) (hs : s = vt.sotId ∨ s = vt.eotId) :
    (decode vt ids = Except.error TokError.invalidID ↔
      ∃ id ∈ ids, id ≠ vt.sotId ∧ id ≠ vt.eotId ∧ lookupStr vt id = none) ∧
    decode vt (ids1 ++ s :: ids2) = decode vt (ids1 ++ ids2) := by
  constructor
  · rw [← decodeTokens_error_iff vt ids]
    unfold decode
    rcases hr : decodeTokens vt ids with e | t <;> simp
  · rcases decodeTokens_insert_special vt s hs ids1 ids2 with
      ⟨e, h1, h2⟩ | ⟨t1, t2, h1, h2, hj⟩
    · unfold decode
      rw [h1, h2]
    · unfold decode
      rw [h1, h2]
      simp only [hj]

/-- Witness for C9: at the modelled shipped table, `decode [5, 320]` fails with
`InvalidID` because 5 is outside the table, and inserting the start-of-text ID
in [320, 2533] leaves the decoded text unchanged. -/
theorem decode_invalidID_iff_witness :
    (decode clipVT [5, 320] = Except.error TokError.invalidID ↔
      ∃ id ∈ [5, 320], id ≠ clipVT.sotId ∧ id ≠ clipVT.eotId ∧
        lookupStr clipVT id = none) ∧
    decode clipVT ([320] ++ 49406 :: [2533]) = decode clipVT ([320] ++ [2533]) :=
  decode_invalidID_iff clipVT [5, 320] [320] [2533] 49406 (by decide)

/-! ### Character-class facts -/

theorem char_toNat_inj {c d : Char} : c = d ↔ c.toNat = d.toNat := by
  constructor
  · intro h
    rw [h]
  · intro h
    have h1 : Char.ofNat c.toNat = Char.ofNat d.toNat := by rw [h]
    rwa [Char.ofNat_toNat, Char.ofNat_toNat] at h1

theorem toNat_ofNat_valid {n : Nat} (h : n.isValidChar) : (Char.ofNat n).toNat = n := by
  rw [Char.ofNat, dif_pos h]
  simp [Char.ofNatAux, Char.toNat, UInt32.toNat]

theorem uint32_le_iff {m : Nat} (hm : m < 4294967296) (c : UInt32) :
    ((UInt32.ofNat m) ≤ c) ↔ m ≤ c.toNat := by
  rw [UInt32.le_def, BitVec.le_def]
  simp [UInt32.toNat, UInt32.ofNat, BitVec.ofNat, Nat.mod_eq_of_lt hm]

theorem uint32_ge_iff {m : Nat} (hm : m < 4294967296) (c : UInt32) :
    (c ≤ (UInt32.ofNat m)) ↔ c.toNat ≤ m := by
  rw [UInt32.le_def, BitVec.le_def]
  simp [UInt32.toNat, UInt32.ofNat, BitVec.ofNat, Nat.mod_eq_of_lt hm]

theorem isLetterC_iff (c : Char) :
    isLetterC c = true ↔
      (65 ≤ c.toNat ∧ c.toNat ≤ 90) ∨ (97 ≤ c.toNat ∧ c.toNat ≤ 122) := by
  unfold isLetterC Char.isAlpha Char.isUpper Char.isLower
  rw [Bool.or_eq_true, Bool.and_eq_true, Bool.and_eq_true,
    decide_eq_true_iff, decide_eq_true_iff, decide_eq_true_iff, decide_eq_true_iff]
  rw [ge_iff_le, ge_iff_le,
    show (65 : UInt32) = UInt32.ofNat 65 from rfl,
    show (90 : UInt32) = UInt32.ofNat 90 from rfl,
    show (97 : UInt32) = UInt32.ofNat 97 from rfl,
    show (122 : UInt32) = UInt32.ofNat 122 from rfl,
    uint32_le_iff (by norm_num), uint32_le_iff (by norm_num),
    uint32_ge_iff (by norm_num), uint32_ge_iff (by norm_num)]
  exact Iff.rfl

theorem isDigitC_iff (c : Char) :
    isDigitC c = true ↔ 48 ≤ c.toNat ∧ c.toNat ≤ 57 := by
  unfold isDigitC Char.isDigit
  rw [Bool.and_eq_true, decide_eq_true_iff, decide_eq_true_iff]
  rw [ge_iff_le,
    show (48 : UInt32) = UInt32.ofNat 48 from rfl,
    show (57 : UInt32) = UInt32.ofNat 57 from rfl,
    uint32_le_iff (by norm_num), uint32_ge_iff (by norm_num)]
  exact Iff.rfl

theorem isSpaceC_iff (c : Char) :
    isSpaceC c = true ↔
      c.toNat = 32 ∨ c.toNat = 9 ∨ c.toNat = 13 ∨ c.toNat = 10 := by
  unfold isSpaceC Char.isWhitespace
  simp only [Bool.or_eq_true, decide_eq_true_iff]
  rw [@char_toNat_inj c ' ', @char_toNat_inj c '\t', @char_toNat_inj c '\r',
    @char_toNat_inj c '\n']
  simp only [show (' ').toNat = 32 from rfl, show ('\t').toNat = 9 from rfl,
    show ('\r').toNat = 13 from rfl, show ('\n').toNat = 10 from rfl]
  tauto

theorem isPunctC_iff (c : Char) :
    isPunctC c = true ↔
      isLetterC c = false ∧ isDigitC c = false ∧ isSpaceC c = false := by
  unfold isPunctC
  simp only [Bool.and_eq_true, Bool.not_eq_true']
  tauto

theorem lowerC_toNat (c : Char) :
    (lowerC c).toNat =
      if 65 ≤ c.toNat ∧ c.toNat ≤ 90 then c.toNat + 32 else c.toNat := by
  show (if c.toNat ≥ 65 ∧ c.toNat ≤ 90 then Char.ofNat (c.toNat + 32) else c).toNat = _
  split
  · rename_i h
    exact toNat_ofNat_valid (Or.inl (by omega))
  · rfl

theorem lowerC_eq_of_not_upper {c : Char} (h : ¬(65 ≤ c.toNat ∧ c.toNat ≤ 90)) :
    lowerC c = c := by
  show (if c.toNat ≥ 65 ∧ c.toNat ≤ 90 then Char.ofNat (c.toNat + 32) else c) = c
  rw [if_neg (fun hc => h ⟨hc.1, hc.2⟩)]

theorem lowerC_idem (c : Char) : lowerC (lowerC c) = lowerC c := by
  by_cases h : 65 ≤ c.toNat ∧ c.toNat ≤ 90
  · apply lowerC_eq_of_not_upper
    rw [lowerC_toNat, if_pos h]
    omega
  · rw [lowerC_eq_of_not_upper h, lowerC_eq_of_not_upper h]

theorem isLetterC_lowerC {c : Char} (h : isLetterC c = true) :
    isLetterC (lowerC c) = true := by
  rw [isLetterC_iff] at h ⊢
  rw [lowerC_toNat]
  split <;> omega

theorem lowerC_of_not_letter {c : Char} (h : isLetterC c = false) : lowerC c = c := by
  apply lowerC_eq_of_not_upper
  intro hc
  have h1 : isLetterC c = true := (isLetterC_iff c).mpr (Or.inl hc)
  rw [h1] at h
  exact Bool.noConfusion h

theorem isLetterC_lowerC_iff (c : Char) : isLetterC (lowerC c) = isLetterC c := by
  rcases hl : isLetterC c with - | -
  · rw [lowerC_of_not_letter hl, hl]
  · rw [isLetterC_lowerC hl]

theorem not_letter_not_space_of_digit {c : Char} (h : isDigitC c = true) :
    isLetterC c = false ∧ isSpaceC c = false := by
  rw [isDigitC_iff] at h
  constructor
  · rcases hl : isLetterC c with - | -
    · rfl
    · rw [isLetterC_iff] at hl
      omega
  · rcases hs : isSpaceC c with - | -
    · rfl
    · rw [isSpaceC_iff] at hs
      omega

theorem not_space_of_letter {c : Char} (h : isLetterC c = true) :
    isSpaceC c = false := by
  rw [isLetterC_iff] at h
  rcases hs : isSpaceC c with - | -
  · rfl
  · rw [isSpaceC_iff] at hs
    omega

theorem lowerC_of_digit {c : Char} (h : isDigitC c = true) : lowerC c = c :=
  lowerC_of_not_letter (not_letter_not_space_of_digit h).1

theorem isDigitC_lowerC {c : Char} (h : isDigitC c = true) :
    isDigitC (lowerC c) = true := by
  rw [lowerC_of_digit h]
  exact h

theorem isPunctC_lowerC {c : Char} (h : isPunctC c = true) :
    lowerC c = c ∧ isPunctC (lowerC c) = true := by
  rw [isPunctC_iff] at h
  have hl := lowerC_of_not_letter h.1
  rw [hl]
  exact ⟨rfl, (isPunctC_iff c).mpr h⟩

/-! ### Symbol streams: merging preserves the concatenated characters -/

theorem joinAll_append {α : Type} (a b : List (List α)) :
    joinAll (a ++ b) = joinAll a ++ joinAll b := by
  induction a with
  | nil => rfl
  | cons x xs ih => simp [joinAll, ih]

theorem joinAll_join {α : Type} (ll : List (List (List α))) :
    joinAll (joinAll ll) = joinAll (ll.map joinAll) := by
  induction ll with
  | nil => rfl
  | cons x xs ih => simp [joinAll, joinAll_append, ih]

theorem joinAll_map_singleton {α : Type} (l : List α) :
    joinAll (l.map (fun ch => [ch])) = l := by
  induction l with
  | nil => rfl
  | cons c rest ih => simp [joinAll, ih]

theorem mergePair_join (p : List Char × List Char) (l : List (List Char)) :
    joinAll (mergePair p l) = joinAll l := by
  induction l using mergePair.induct p with
  | case1 a b rest hab ih =>
    simp only [mergePair, if_pos hab, joinAll, ih]
    simp [List.append_assoc]
  | case2 a b rest hab ih =>
    simp only [mergePair, if_neg hab, joinAll] at *
    rw [ih]
  | case3 l hcc =>
    match l, hcc with
    | [], _ => rfl
    | [a], _ => rfl
    | a :: b :: rest, hcc => exact (hcc a b rest rfl).elim

theorem bpeLoop_join (merges : List (List Char × List Char)) :
    ∀ (n : Nat) (syms : List (List Char)), syms.length ≤ n →
      joinAll (bpeLoop merges syms) = joinAll syms := by
  intro n
  induction n with
  | zero =>
    intro syms h
    have : syms = [] := List.length_eq_zero.mp (Nat.le_zero.mp h)
    subst this
    rw [bpeLoop_none (bestPair_nil merges)]
  | succ k ih =>
    intro syms h
    rcases hb : bestPair merges syms with - | p
    · rw [bpeLoop_none hb]
    · rw [bpeLoop_some hb]
      have hlt := mergePair_length_lt p syms (bestPair_mem hb)
      rw [ih (mergePair p syms) (by omega), mergePair_join]

theorem utf8Bytes_ne_nil (c : Char) : utf8Bytes c ≠ [] := by
  unfold utf8Bytes
  split
  · simp
  · split
    · simp
    · split <;> simp

theorem byteChars_ne_nil {cl : List Char} (h : cl ≠ []) : byteChars cl ≠ [] := by
  match cl, h with
  | c :: rest, _ =>
    unfold byteChars
    simp only [List.map_cons, joinAll]
    rcases hu : utf8Bytes c with - | ⟨b, bs⟩
    · exact absurd hu (utf8Bytes_ne_nil c)
    · simp

theorem withEnd_join (l : List (List Char)) (hl : l ≠ []) :
    joinAll (withEnd l) = joinAll l ++ [endChar] := by
  induction l with
  | nil => exact absurd rfl hl
  | cons s rest ih =>
    cases rest with
    | nil => simp [withEnd, joinAll]
    | cons t rest2 =>
      simp only [withEnd, joinAll]
      rw [ih (by simp), ← List.append_assoc]
      simp [joinAll]

theorem bpe_join (vt : VocabularyTable) (cl : List Char) (h : cl ≠ []) :
    joinAll (bpe vt cl) = byteChars cl ++ [endChar] := by
  unfold bpe
  rw [bpeLoop_join vt.merges (initSymbols cl).length _ (Nat.le_refl _)]
  unfold initSymbols
  rw [withEnd_join _ (by
    intro hc
    exact byteChars_ne_nil h (List.map_eq_nil.mp hc)), joinAll_map_singleton]

/-! ### UTF-8 round trip -/

theorem decodeOne_utf8 (c : Char) (tail : List Nat) :
    ∃ b bs, utf8Bytes c = b :: bs ∧ decodeOne b (bs ++ tail) = (c, tail) := by
  have hv := char_toNat_lt c
  have hvv : c.toNat < 55296 ∨ (57343 < c.toNat ∧ c.toNat < 1114112) := c.valid
  by_cases h1 : c.toNat < 128
  · refine ⟨c.toNat, [], by rw [utf8Bytes, if_pos h1], ?_⟩
    unfold decodeOne
    rw [if_pos h1, Char.ofNat_toNat]
    simp
  · by_cases h2 : c.toNat < 2048
    · refine ⟨192 + c.toNat / 64, [128 + c.toNat % 64],
        by rw [utf8Bytes, if_neg h1, if_pos h2], ?_⟩
      unfold decodeOne
      rw [if_neg (by omega),
        if_pos (show (194 ≤ 192 + c.toNat / 64 && 192 + c.toNat / 64 ≤ 223) = true by
          simp only [Bool.and_eq_true, decide_eq_true_iff]
          omega)]
      show (if contByte (128 + c.toNat % 64) = true then _ else _) = _
      rw [if_pos (show contByte (128 + c.toNat % 64) = true by
        simp only [contByte, Bool.and_eq_true, decide_eq_true_iff]
        omega)]
      have hX : (192 + c.toNat / 64 - 192) * 64 + (128 + c.toNat % 64 - 128) = c.toNat := by
        omega
      rw [hX, Char.ofNat_toNat]
      simp
    · by_cases h3 : c.toNat < 65536
      · refine ⟨224 + c.toNat / 4096, [128 + c.toNat / 64 % 64, 128 + c.toNat % 64],
          by rw [utf8Bytes, if_neg h1, if_neg h2, if_pos h3], ?_⟩
        unfold decodeOne
        rw [if_neg (by omega),
          if_neg (show ¬(194 ≤ 224 + c.toNat / 4096 && 224 + c.toNat / 4096 ≤ 223) = true by
            simp only [Bool.and_eq_true, decide_eq_true_iff]
            omega),
          if_pos (show (224 ≤ 224 + c.toNat / 4096 && 224 + c.toNat / 4096 ≤ 239) = true by
            simp only [Bool.and_eq_true, decide_eq_true_iff]
            omega)]
        show (if (contByte (128 + c.toNat / 64 % 64) && contByte (128 + c.toNat % 64)) = true
          then _ else _) = _
        rw [if_pos (show (contByte (128 + c.toNat / 64 % 64) &&
            contByte (128 + c.toNat % 64)) = true by
          simp only [contByte, Bool.and_eq_true, decide_eq_true_iff]
          omega)]
        have hX : (224 + c.toNat / 4096 - 224) * 4096 + (128 + c.toNat / 64 % 64 - 128) * 64 +
            (128 + c.toNat % 64 - 128) = c.toNat := by
          omega
        rw [hX,
          if_pos (show (2048 ≤ c.toNat &&
              (c.toNat < 55296 || 57343 < c.toNat)) = true by
            simp only [Bool.and_eq_true, Bool.or_eq_true, decide_eq_true_iff]
            omega),
          Char.ofNat_toNat]
        simp
      · refine ⟨240 + c.toNat / 262144,
          [128 + c.toNat / 4096 % 64, 128 + c.toNat / 64 % 64, 128 + c.toNat % 64],
          by rw [utf8Bytes, if_neg h1, if_neg h2, if_neg h3], ?_⟩
        unfold decodeOne
        rw [if_neg (by omega),
          if_neg (show ¬(194 ≤ 240 + c.toNat / 262144 &&
              240 + c.toNat / 262144 ≤ 223) = true by
            simp only [Bool.and_eq_true, decide_eq_true_iff]
            omega),
          if_neg (show ¬(224 ≤ 240 + c.toNat / 262144 &&
              240 + c.toNat / 262144 ≤ 239) = true by
            simp only [Bool.and_eq_true, decide_eq_true_iff]
            omega),
          if_pos (show (240 ≤ 240 + c.toNat / 262144 &&
              240 + c.toNat / 262144 ≤ 244) = true by
            simp only [Bool.and_eq_true, decide_eq_true_iff]
            omega)]
        show (if (contByte (128 + c.toNat / 4096 % 64) && contByte (128 + c.toNat / 64 % 64) &&
            contByte (128 + c.toNat % 64)) = true then _ else _) = _
        rw [if_pos (show (contByte (128 + c.toNat / 4096 % 64) &&
            contByte (128 + c.toNat / 64 % 64) && contByte (128 + c.toNat % 64)) = true by
          simp only [contByte, Bool.and_eq_true, decide_eq_true_iff]
          omega)]
        have hX : (240 + c.toNat / 262144 - 240) * 262144 +
            (128 + c.toNat / 4096 % 64 - 128) * 4096 +
            (128 + c.toNat / 64 % 64 - 128) * 64 + (128 + c.toNat % 64 - 128) = c.toNat := by
          omega
        rw [hX,
          if_pos (show (65536 ≤ c.toNat && c.toNat < 1114112) = true by
            simp only [Bool.and_eq_true, decide_eq_true_iff]
            omega),
          Char.ofNat_toNat]
        simp

theorem utf8Decode_encode_cons (c : Char) (tail : List Nat) :
    utf8Decode (utf8Bytes c ++ tail) = c :: utf8Decode tail := by
  rcases decodeOne_utf8 c tail with ⟨b, bs, hb, hd⟩
  rw [hb, List.cons_append, utf8Decode_cons, hd]

theorem utf8Decode_join (cl : List Char) :
    utf8Decode (joinAll (cl.map utf8Bytes)) = cl := by
  induction cl with
  | nil => rfl
  | cons c rest ih =>
    simp only [List.map_cons, joinAll]
    rw [utf8Decode_encode_cons, ih]

/-! ### Decoding the output of encode -/

theorem alookup_mem {α β : Type} [DecidableEq α] :
    ∀ {l : List (α × β)} {k : α} {v : β}, alookup l k = some v → (k, v) ∈ l := by
  intro l
  induction l with
  | nil => intro k v h; exact absurd h (by simp [alookup])
  | cons e rest ih =>
    intro k v h
    rcases e with ⟨k0, v0⟩
    simp only [alookup] at h
    split at h
    · rename_i hk
      simp only [Option.some.injEq] at h
      subst hk
      subst h
      exact List.mem_cons_self _ _
    · exact List.mem_cons_of_mem _ (ih h)

theorem lookupIds_decodeTokens {vt : VocabularyTable}
    (hinv : ∀ p ∈ vt.toId, alookup vt.toStr p.2 = some p.1)
    (hspec : ∀ p ∈ vt.toId, p.2 ≠ vt.sotId ∧ p.2 ≠ vt.eotId) :
    ∀ (ts : List (List Char)) (ids : List Nat),
      lookupIds vt ts = some ids → decodeTokens vt ids = Except.ok ts := by
  intro ts
  induction ts with
  | nil =>
    intro ids h
    simp only [lookupIds, Option.some.injEq] at h
    rw [← h]
    rfl
  | cons t rest ih =>
    intro ids h
    simp only [lookupIds] at h
    rcases hl : lookupId vt t with - | i <;> rw [hl] at h
    · exact absurd h (by simp)
    · rcases hr : lookupIds vt rest with - | is <;> rw [hr] at h
      · exact absurd h (by simp)
      · simp only [Option.some.injEq] at h
        subst h
        have hmem : (t, i) ∈ vt.toId := alookup_mem hl
        have hd : decodeToken vt i = Except.ok t := by
          unfold decodeToken
          rw [if_neg (by
            have := hspec _ hmem
            simpa using this), show lookupStr vt i = some t from hinv _ hmem]
        simp [decodeTokens, hd, ih is hr]

theorem endChar_not_mem_byteChars (cl : List Char) : endChar ∉ byteChars cl := by
  intro h
  rcases byteChars_mem cl endChar h with ⟨b, hb, he⟩
  exact byteToChar_ne_endChar b hb he.symm

theorem splitMarker_append (seg rest : List Char) (hseg : endChar ∉ seg) :
    splitMarker (seg ++ endChar :: rest) = seg :: splitMarker rest := by
  induction seg with
  | nil => simp [splitMarker]
  | cons c seg2 ih =>
    have hc : c ≠ endChar := fun h => hseg (h ▸ List.mem_cons_self _ _)
    have ih2 := ih (fun h => hseg (List.mem_cons_of_mem _ h))
    simp only [List.cons_append, splitMarker, if_neg hc, List.append_eq, ih2]

theorem splitMarker_stream :
    ∀ (segs : List (List Char)), (∀ seg ∈ segs, endChar ∉ seg) →
      splitMarker (joinAll (segs.map (fun seg => seg ++ [endChar]))) = segs ++ [[]] := by
  intro segs
  induction segs with
  | nil => intro _; rfl
  | cons seg rest ih =>
    intro h
    simp only [List.map_cons, joinAll, List.append_assoc, List.singleton_append]
    rw [splitMarker_append _ _ (h seg (List.mem_cons_self _ _)),
      ih (fun s hs => h s (List.mem_cons_of_mem _ hs))]
    rfl

theorem map_charToByte_byteChars (cl : List Char) :
    (byteChars cl).map (fun c => (charToByte c).getD 0) = joinAll (cl.map utf8Bytes) := by
  unfold byteChars
  rw [List.map_map]
  have h : ∀ b ∈ joinAll (cl.map utf8Bytes),
      ((fun c => (charToByte c).getD 0) ∘ byteToChar) b = id b := by
    intro b hb
    rcases mem_joinAll.mp hb with ⟨bl, hbl, hbmem⟩
    rcases List.mem_map.mp hbl with ⟨c, -, rfl⟩
    have hlt := utf8Bytes_lt256 c b hbmem
    simp [charToByte_byteToChar b hlt]
  rw [List.map_congr_left h, List.map_id]

theorem segText_byteChars (cl : List Char) : segText (byteChars cl) = cl := by
  unfold segText
  rw [map_charToByte_byteChars, utf8Decode_join]

theorem joinSpaces_concat_nil :
    ∀ (l : List (List Char)), joinSpaces (l ++ [[]]) = rejoined l := by
  intro l
  induction l with
  | nil => rfl
  | cons a rest ih =>
    cases rest with
    | nil => simp [joinSpaces, rejoined, joinAll]
    | cons b rest2 =>
      simp only [List.cons_append, joinSpaces, List.append_eq] at *
      rw [ih]
      simp [rejoined, joinAll, List.append_assoc]

theorem decode_joined (vt : VocabularyTable)
    (hinv : ∀ p ∈ vt.toId, alookup vt.toStr p.2 = some p.1)
    (hspec : ∀ p ∈ vt.toId, p.2 ≠ vt.sotId ∧ p.2 ≠ vt.eotId)
    (cs : List (List Char)) (hne : ∀ cl ∈ cs, cl ≠ []) (ids : List Nat)
    (h : lookupIds vt (joinAll (cs.map (bpe vt))) = some ids) :
    decode vt ids = Except.ok (rejoined cs) := by
  have hdt := lookupIds_decodeTokens hinv hspec _ _ h
  have hjoin : joinAll (joinAll (cs.map (bpe vt))) =
      joinAll ((cs.map byteChars).map (fun seg => seg ++ [endChar])) := by
    rw [joinAll_join, List.map_map, List.map_map]
    congr 1
    apply List.map_congr_left
    intro cl hcl
    exact bpe_join vt cl (hne cl hcl)
  have h1 : decode vt ids = Except.ok (renderTokens (joinAll (joinAll (cs.map (bpe vt))))) := by
    unfold decode
    rw [hdt]
  rw [h1]
  unfold renderTokens
  rw [hjoin,
    splitMarker_stream _ (by
      intro seg hs
      rcases List.mem_map.mp hs with ⟨cl, -, rfl⟩
      exact endChar_not_mem_byteChars cl)]
  have hmapseg : (cs.map byteChars ++ [[]]).map segText = cs ++ [[]] := by
    rw [List.map_append, List.map_map]
    congr 1
    · rw [show (segText ∘ byteChars) = fun cl => segText (byteChars cl) from rfl]
      rw [List.map_congr_left (fun cl _ => segText_byteChars cl)]
      simp
  rw [hmapseg, joinSpaces_concat_nil]

/-! ### Rescanning decoded text -/

theorem lowerC_apos : lowerC apos = apos := by decide

theorem map_lowerC_stable (l : List Char) :
    (l.map lowerC).map lowerC = l.map lowerC := by
  rw [List.map_map]
  exact List.map_congr_left (fun a _ => lowerC_idem a)

theorem contrTwo_lowerC (x : Char) : contrTwo (lowerC x) ↔ contrTwo x := by
  unfold contrTwo
  rw [lowerC_idem]

theorem contrThree_lowerC (x y : Char) :
    contrThree (lowerC x) (lowerC y) ↔ contrThree x y := by
  unfold contrThree
  rw [lowerC_idem, lowerC_idem]

theorem matchContraction_none_head {c : Char} (hc : c ≠ apos) :
    ∀ (l : List Char), matchContraction (c :: l) = none := by
  intro l
  cases l with
  | nil => rfl
  | cons d rest =>
    simp only [matchContraction]
    rw [if_neg hc]

theorem ne_char_of_letter {x : Char} (hx : isLetterC x = false) {y : Char}
    (hy : isLetterC y = true) : x ≠ y := by
  intro h
  rw [h, hy] at hx
  exact Bool.noConfusion hx

theorem not_contrTwo_of_nonletter {x : Char} (hx : isLetterC x = false) :
    ¬ contrTwo x := by
  have hlx := lowerC_of_not_letter hx
  unfold contrTwo
  rw [hlx]
  push_neg
  exact ⟨ne_char_of_letter hx (by decide), ne_char_of_letter hx (by decide),
    ne_char_of_letter hx (by decide), ne_char_of_letter hx (by decide)⟩

theorem not_contrThree_of_nonletter {x : Char} (hx : isLetterC x = false) (y : Char) :
    ¬ contrThree x y := by
  have hlx := lowerC_of_not_letter hx
  unfold contrThree
  rw [hlx]
  push_neg
  refine ⟨fun h => absurd h (ne_char_of_letter hx (by decide)),
    fun h => absurd h (ne_char_of_letter hx (by decide)),
    fun h => absurd h (ne_char_of_letter hx (by decide))⟩

theorem matchContraction_none_nonletter {x : Char} (hx : isLetterC x = false) :
    ∀ (rest : List Char), matchContraction (apos :: x :: rest) = none := by
  intro rest
  simp only [matchContraction]
  rw [if_pos trivial]
  have h2 : ¬(lowerC x = 's' ∨ lowerC x = 't' ∨ lowerC x = 'm' ∨ lowerC x = 'd') :=
    not_contrTwo_of_nonletter hx
  rw [if_neg h2]
  cases rest with
  | nil => rfl
  | cons d rest1 =>
    show (if lowerC x = 'r' ∧ lowerC d = 'e' ∨ lowerC x = 'v' ∧ lowerC d = 'e' ∨
        lowerC x = 'l' ∧ lowerC d = 'l' then some ([apos, x, d], rest1) else none) = none
    exact if_neg (not_contrThree_of_nonletter hx d)

theorem takeWhile_run {p : Char → Bool} :
    ∀ (w : List Char), (∀ a ∈ w, p a = true) → ∀ (d : Char), p d = false →
      ∀ (r : List Char),
        (w ++ d :: r).takeWhile p = w ∧ (w ++ d :: r).dropWhile p = d :: r := by
  intro w
  induction w with
  | nil =>
    intro _ d hd r
    simp [List.takeWhile_cons, List.dropWhile_cons, hd]
  | cons a w2 ih =>
    intro hw d hd r
    have ha := hw a (List.mem_cons_self _ _)
    have ih2 := ih (fun b hb => hw b (List.mem_cons_of_mem _ hb)) d hd r
    simp [List.takeWhile_cons, List.dropWhile_cons, ha, ih2.1, ih2.2]

theorem space_skip {r : List Char}
    (hr : r = [] ∨ ∃ d r2, r = d :: r2 ∧ isSpaceC d = false) :
    pretokenize (' ' :: r) = pretokenize r := by
  rw [pretokenize_space (matchContraction_none_head (by decide) r) (by decide)
    (by decide) (by decide)]
  rcases hr with rfl | ⟨d, r2, rfl, hd⟩
  · rfl
  · rw [show (d :: r2).dropWhile isSpaceC = d :: r2 from by
      simp [List.dropWhile, hd]]

theorem good_ne_nil {w : List Char} (hw : GoodCluster w) : w ≠ [] := by
  rcases hw.2 with ⟨x, h, -⟩ | ⟨x, y, h, -, -⟩ | ⟨h, -⟩ | ⟨h, -⟩ | ⟨h, -⟩ <;>
    first
      | (rw [h]; simp)
      | exact h

theorem good_head_not_space {w : List Char} (hw : GoodCluster w) :
    ∃ c w2, w = c :: w2 ∧ isSpaceC c = false := by
  rcases hw.2 with ⟨x, h, -⟩ | ⟨x, y, h, -, -⟩ | ⟨hne, hall⟩ | ⟨hne, hall⟩ | ⟨hne, hall⟩
  · exact ⟨apos, [x], h, by decide⟩
  · exact ⟨apos, [x, y], h, by decide⟩
  · match w, hne with
    | c :: w2, _ =>
      exact ⟨c, w2, rfl, not_space_of_letter (hall c (List.mem_cons_self _ _))⟩
  · match w, hne with
    | c :: w2, _ =>
      exact ⟨c, w2, rfl,
        (not_letter_not_space_of_digit (hall c (List.mem_cons_self _ _))).2⟩
  · match w, hne with
    | c :: w2, _ =>
      exact ⟨c, w2, rfl,
        ((isPunctC_iff c).mp (hall c (List.mem_cons_self _ _))).2.2⟩

theorem pretok_good_cluster (w r : List Char) (hw : GoodCluster w)
    (hr : r = [] ∨ ∃ d r2, r = d :: r2 ∧ isSpaceC d = false) :
    pretokenize (w ++ ' ' :: r) = w :: pretokenize r := by
  obtain ⟨hst, hshape⟩ := hw
  rcases hshape with ⟨x, rfl, hc2⟩ | ⟨x, y, rfl, hnc2, hc3⟩ | ⟨hne, hall⟩ |
    ⟨hne, hall⟩ | ⟨hne, hall⟩
  · have hm : matchContraction ([apos, x] ++ ' ' :: r) = some ([apos, x], ' ' :: r) := by
      simp only [List.cons_append, List.nil_append, matchContraction]
      rw [if_pos trivial]
      exact if_pos hc2
    rw [show [apos, x] ++ ' ' :: r = apos :: x :: ' ' :: r from rfl] at hm ⊢
    rw [pretokenize_contr hm, hst, space_skip hr]
  · have hm : matchContraction ([apos, x, y] ++ ' ' :: r) =
        some ([apos, x, y], ' ' :: r) := by
      simp only [List.cons_append, List.nil_append, matchContraction]
      rw [if_pos trivial,
        if_neg (show ¬(lowerC x = 's' ∨ lowerC x = 't' ∨ lowerC x = 'm' ∨
          lowerC x = 'd') from hnc2)]
      exact if_pos hc3
    rw [show [apos, x, y] ++ ' ' :: r = apos :: x :: y :: ' ' :: r from rfl] at hm ⊢
    rw [pretokenize_contr hm, hst, space_skip hr]
  · match w, hne, hst, hall with
    | c :: w2, _, hst, hall =>
      have hc : isLetterC c = true := hall c (List.mem_cons_self _ _)
      have hcall : ∀ a ∈ w2, isLetterC a = true :=
        fun a ha => hall a (List.mem_cons_of_mem _ ha)
      have hm : matchContraction (c :: (w2 ++ ' ' :: r)) = none :=
        matchContraction_none_head
          (Ne.symm (ne_char_of_letter (by decide) hc)) _
      have htw := takeWhile_run w2 hcall ' ' (by decide) r
      rw [List.cons_append, pretokenize_letter hm hc, htw.1, htw.2, hst, space_skip hr]
  · match w, hne, hst, hall with
    | c :: w2, _, hst, hall =>
      have hc : isDigitC c = true := hall c (List.mem_cons_self _ _)
      have hcall : ∀ a ∈ w2, isDigitC a = true :=
        fun a ha => hall a (List.mem_cons_of_mem _ ha)
      have hclet := (not_letter_not_space_of_digit hc).1
      have hm : matchContraction (c :: (w2 ++ ' ' :: r)) = none :=
        matchContraction_none_head
          (fun h => absurd (h ▸ hc) (by decide)) _
      have htw := takeWhile_run w2 hcall ' ' (by decide) r
      rw [List.cons_append, pretokenize_digit hm hclet hc, htw.1, htw.2, hst,
        space_skip hr]
  · match w, hne, hst, hall with
    | c :: w2, _, hst, hall =>
      have hc : isPunctC c = true := hall c (List.mem_cons_self _ _)
      obtain ⟨hc1, hc2, hc3⟩ := (isPunctC_iff c).mp hc
      have hcall : ∀ a ∈ w2, isPunctC a = true :=
        fun a ha => hall a (List.mem_cons_of_mem _ ha)
      have hm : matchContraction (c :: (w2 ++ ' ' :: r)) = none := by
        by_cases hca : c = apos
        · subst hca
          cases w2 with
          | nil =>
            simp only [List.nil_append]
            exact matchContraction_none_nonletter (by decide) r
          | cons x w3 =>
            have hx := ((isPunctC_iff x).mp (hcall x (List.mem_cons_self _ _))).1
            simp only [List.cons_append]
            exact matchContraction_none_nonletter hx _
        · exact matchContraction_none_head hca _
      have htw := takeWhile_run w2 hcall ' ' (by decide) r
      rw [List.cons_append, pretokenize_punct hm hc1 hc2 hc3, htw.1, htw.2, hst,
        space_skip hr]

theorem rejoined_cons (w : List Char) (rest : List (List Char)) :
    rejoined (w :: rest) = w ++ ' ' :: rejoined rest := by
  simp [rejoined, joinAll, List.append_assoc]

theorem pretokenize_rejoined :
    ∀ (cs : List (List Char)), (∀ w ∈ cs, GoodCluster w) →
      pretokenize (rejoined cs) = cs := by
  intro cs
  induction cs with
  | nil => intro _; rfl
  | cons w rest ih =>
    intro h
    have hw := h w (List.mem_cons_self _ _)
    have hrest := fun u hu => h u (List.mem_cons_of_mem _ hu)
    have hr : rejoined rest = [] ∨
        ∃ d r2, rejoined rest = d :: r2 ∧ isSpaceC d = false := by
      cases rest with
      | nil => exact Or.inl rfl
      | cons w2 rest2 =>
        right
        rcases good_head_not_space (h w2 (by simp)) with ⟨c, w2t, hw2, hc⟩
        refine ⟨c, w2t ++ ' ' :: rejoined rest2, ?_, hc⟩
        rw [rejoined_cons, hw2, List.cons_append]
    rw [rejoined_cons, pretok_good_cluster w (rejoined rest) hw hr, ih hrest]

theorem matchContraction_some_inv {l cl r : List Char}
    (h : matchContraction l = some (cl, r)) :
    (∃ x, cl = [apos, x] ∧ contrTwo x ∧ l = apos :: x :: r) ∨
    (∃ x y, cl = [apos, x, y] ∧ ¬contrTwo x ∧ contrThree x y ∧
      l = apos :: x :: y :: r) := by
  match l with
  | [] => exact absurd h (by simp [matchContraction])
  | [a] => exact absurd h (by simp [matchContraction])
  | a :: c :: rest =>
    simp only [matchContraction] at h
    split at h
    · rename_i ha
      subst ha
      split at h
      · rename_i hc2
        simp only [Option.some.injEq, Prod.mk.injEq] at h
        left
        exact ⟨c, h.1.symm, hc2, by rw [h.2]⟩
      · rename_i hnc2
        split at h
        · rename_i d rest1
          split at h
          · rename_i hc3
            simp only [Option.some.injEq, Prod.mk.injEq] at h
            right
            exact ⟨c, d, h.1.symm, hnc2, hc3, by rw [h.2]⟩
          · exact absurd h (by simp)
        · exact absurd h (by simp)
    · exact absurd h (by simp)

theorem pretokenize_good :
    ∀ (n : Nat) (l : List Char), l.length ≤ n →
      ∀ w ∈ pretokenize l, GoodCluster w := by
  intro n
  induction n with
  | zero =>
    intro l h w hw
    have : l = [] := List.length_eq_zero.mp (Nat.le_zero.mp h)
    subst this
    exact absurd hw (by simp [pretokenize_nil])
  | succ k ih =>
    intro l h w hw
    cases l with
    | nil => exact absurd hw (by simp [pretokenize_nil])
    | cons c rest =>
      simp only [List.length_cons] at h
      rcases hm : matchContraction (c :: rest) with - | ⟨cl, r1⟩
      · rcases hlet : isLetterC c with - | -
        · rcases hdig : isDigitC c with - | -
          · rcases hsp : isSpaceC c with - | -
            · rw [pretokenize_punct hm hlet hdig hsp] at hw
              rcases List.mem_cons.mp hw with rfl | hw2
              · refine ⟨map_lowerC_stable _, Or.inr (Or.inr (Or.inr (Or.inr
                  ⟨by simp, ?_⟩)))⟩
                intro ch hch
                rcases List.mem_map.mp hch with ⟨u, hu, rfl⟩
                have hu2 : isPunctC u = true := by
                  rcases List.mem_cons.mp hu with rfl | hu3
                  · exact (isPunctC_iff u).mpr ⟨hlet, hdig, hsp⟩
                  · exact List.mem_takeWhile_imp hu3
                exact (isPunctC_lowerC hu2).2
              · exact ih _ (Nat.le_trans (dropWhileLenLe _ rest) (by omega)) w hw2
            · rw [pretokenize_space hm hlet hdig hsp] at hw
              exact ih _ (Nat.le_trans (dropWhileLenLe _ rest) (by omega)) w hw
          · rw [pretokenize_digit hm hlet hdig] at hw
            rcases List.mem_cons.mp hw with rfl | hw2
            · refine ⟨map_lowerC_stable _, Or.inr (Or.inr (Or.inr (Or.inl
                ⟨by simp, ?_⟩)))⟩
              intro ch hch
              rcases List.mem_map.mp hch with ⟨u, hu, rfl⟩
              have hu2 : isDigitC u = true := by
                rcases List.mem_cons.mp hu with rfl | hu3
                · exact hdig
                · exact List.mem_takeWhile_imp hu3
              exact isDigitC_lowerC hu2
            · exact ih _ (Nat.le_trans (dropWhileLenLe _ rest) (by omega)) w hw2
        · rw [pretokenize_letter hm hlet] at hw
          rcases List.mem_cons.mp hw with rfl | hw2
          · refine ⟨map_lowerC_stable _, Or.inr (Or.inr (Or.inl ⟨by simp, ?_⟩))⟩
            intro ch hch
            rcases List.mem_map.mp hch with ⟨u, hu, rfl⟩
            have hu2 : isLetterC u = true := by
              rcases List.mem_cons.mp hu with rfl | hu3
              · exact hlet
              · exact List.mem_takeWhile_imp hu3
            exact isLetterC_lowerC hu2
          · exact ih _ (Nat.le_trans (dropWhileLenLe _ rest) (by omega)) w hw2
      · rw [pretokenize_contr hm] at hw
        rcases List.mem_cons.mp hw with rfl | hw2
        · rcases matchContraction_some_inv hm with
            ⟨x, rfl, hc2, hl⟩ | ⟨x, y, rfl, hnc2, hc3, hl⟩
          · refine ⟨map_lowerC_stable _, Or.inl ⟨lowerC x, ?_,
              (contrTwo_lowerC x).mpr hc2⟩⟩
            simp [lowerC_apos]
          · refine ⟨map_lowerC_stable _, Or.inr (Or.inl ⟨lowerC x, lowerC y, ?_,
              fun hcc => hnc2 ((contrTwo_lowerC x).mp hcc), (contrThree_lowerC x y).mpr hc3⟩)⟩
            simp [lowerC_apos]
        · have hlen := matchContraction_length hm
          simp only [List.length_cons] at hlen
          exact ih r1 (by omega) w hw2

/-- C6: round-trip stability — `decode(encode(s))` need not equal `s`, but
`decode ∘ encode` is idempotent on its own image: when `encode s = ids` and
`decode ids = t`, re-encoding `t` yields an ID sequence that decodes back to
`t` itself (in fact the same ID sequence), so
`decode(encode(decode(encode(s)))) = decode(encode(s))`.  The hypotheses are
the spec's vocabulary invariants: the ID → string mapping inverts the
string → ID mapping, and content-token IDs never collide with the special
IDs. -/
theorem decode_encode_idempotent (vt : VocabularyTable)
    (hinv : ∀ p ∈ vt.toId, alookup vt.toStr p.2 = some p.1)
    (hspec : ∀ p ∈ vt.toId, p.2 ≠ vt.sotId ∧ p.2 ≠ vt.eotId)
    (s : List Char) (ids : List Nat) (t : List Char)
    (h1 : encode vt s = some ids) (h2 : decode vt ids = Except.ok t) :
    ∃ ids2, encode vt t = some ids2 ∧ decode vt ids2 = Except.ok t := by
  have hgood : ∀ w ∈ pretokenize s, GoodCluster w :=
    pretokenize_good s.length s (Nat.le_refl _)
  have hne : ∀ cl ∈ pretokenize s, cl ≠ [] := fun cl hc => good_ne_nil (hgood cl hc)
  have hdec : decode vt ids = Except.ok (rejoined (pretokenize s)) :=
    decode_joined vt hinv hspec (pretokenize s) hne ids h1
  have ht : t = rejoined (pretokenize s) := by
    rw [hdec] at h2
    exact (Except.ok.inj h2).symm
  refine ⟨ids, ?_, h2⟩
  rw [ht]
  show lookupIds vt
    (joinAll ((pretokenize (rejoined (pretokenize s))).map (bpe vt))) = some ids
  rw [pretokenize_rejoined (pretokenize s) hgood]
  exact h1

/-- Witness for C6 at the modelled shipped table: `encode "bla" = [19630]`,
`decode [19630] = "bla "`, and re-encoding `"bla "` round-trips. -/
theorem decode_encode_idempotent_witness :
    ∃ ids2, encode clipVT ("bla ".data) = some ids2 ∧
      decode clipVT ids2 = Except.ok ("bla ".data) :=
  decode_encode_idempotent clipVT (by decide) (by decide) ("bla".data) [19630]
    ("bla ".data) (by decide) (by decide)

end ClipTok
